import Mathlib

/-!
A shallow embedding of the `bm_cbor` decoder (`cbor_parser.c`).

Memory is a total map from addresses to bytes; a cursor `p` and the limit
`end_` are addresses, natural numbers below `2^64` on the machine.  Moving the
cursor over a header (by one octet, or by the 1, 2, 4 or 8 octets of an
argument) is plain addition; the one place where the code adds an unchecked
64-bit length to the cursor, in `cbor_extract_stringref`, is addition modulo
`2^64`.
The buffer handed to a function is the address range `[p, end_)`; a read of
an address outside that range is possible in the model, exactly as it is in
the C code, and returns whatever the memory holds there.

Every C function `int f(const uint8_t **p, const uint8_t *end, T *out)` is a
Lean function `f mem p end_ out : cbor_err × Nat × T` returning the error
code, the cursor after the call and the contents of the output parameter
after the call.  `uint64_t` is `Nat` with explicit `% 2^64`, `int64_t` is
`Int`, `size_t` is taken to be 64 bits wide.
-/

namespace BmCbor

/-- One octet of the input. -/
abbrev Byte := Fin 256

/-- The memory the decoder looks at: an octet at every address. -/
abbrev Mem := Nat → Byte

/-- The memory that holds the list `l` from address 0 on, and zero elsewhere. -/
def memOf (l : List Byte) : Mem := fun i => l.getD i 0

/-- The major types: `CBOR_TYPE_x = (x << 5)`. -/
def CBOR_TYPE_UINT : Nat := 0 <<< 5
def CBOR_TYPE_NINT : Nat := 1 <<< 5
def CBOR_TYPE_BSTR : Nat := 2 <<< 5
def CBOR_TYPE_TSTR : Nat := 3 <<< 5
def CBOR_TYPE_LIST : Nat := 4 <<< 5
def CBOR_TYPE_MAP : Nat := 5 <<< 5
def CBOR_TYPE_TAG : Nat := 6 <<< 5
def CBOR_TYPE_SIMPLE : Nat := 7 <<< 5
def CBOR_TYPE_MASK : Nat := 7 <<< 5

/-- The error enumeration of `cbor_parser.h`. -/
inductive cbor_err
  | CBOR_ERR_NONE
  | CBOR_ERR_TYPE_MISMATCH
  | CBOR_ERR_KEY_MISMATCH
  | CBOR_ERR_OVERRUN
  | CBOR_ERR_INTEGER_DECODE_OVERFLOW
  | CBOR_ERR_INTEGER_ENCODING
  | CBOR_ERR_UNIMPLEMENTED
  | CBOR_ERR_ENUM_END
  deriving DecidableEq, Repr

open cbor_err

/-- The record `cbor_value_t`.  The members of the anonymous union are kept as
separate fields: no function of the parser reads a member other than the one
it has just written, so the overlap of the members is never observed. -/
structure cbor_value_t where
  cbor_start : Nat
  u64 : Nat
  i64 : Int
  ref_ptr : Nat
  ref_length : Nat
  primitive : Nat
  deriving DecidableEq, Repr

/-- The contents of a local `cbor_value_t val;` before anything is stored. -/
def cbor_value_t.init : cbor_value_t := ⟨0, 0, 0, 0, 0, 0⟩

/-- The low five bits of the octet at `p`: `**p & ~CBOR_TYPE_MASK`. -/
def low5 (mem : Mem) (p : Nat) : Nat := (mem p).val &&& (255 - CBOR_TYPE_MASK)

/-- The major-type bits of the octet at `p`: `**p & CBOR_TYPE_MASK`. -/
def typeBits (mem : Mem) (p : Nat) : Nat := (mem p).val &&& CBOR_TYPE_MASK

/-- The loop `for (*n = 0; *p < uend; (*p)++) *n = *n << 8 | **p;` after its
initialisation; the first argument bounds the number of iterations and is
`uend - p` at the call. -/
def cbor_get_argument_loop (mem : Mem) (uend : Nat) : Nat → Nat → Nat → Nat × Nat
  | 0, p, n => (p, n)
  | k + 1, p, n =>
    if p < uend then
      cbor_get_argument_loop mem uend k (p + 1) (((n <<< 8) % 2 ^ 64) ||| (mem p).val)
    else (p, n)

/-- The function `cbor_get_argument`. -/
def cbor_get_argument (mem : Mem) (p end_ : Nat) (n : Nat) : cbor_err × Nat × Nat :=
  if p ≥ end_ then (CBOR_ERR_OVERRUN, p, n)
  else
    let iv := low5 mem p
    if iv ≥ 28 then (CBOR_ERR_INTEGER_ENCODING, p, n)
    else
      let p1 := p + 1
      if iv < 24 then (CBOR_ERR_NONE, p1, iv)
      else
        let uend := p1 + (1 <<< (iv - 24))
        if uend > end_ then (CBOR_ERR_OVERRUN, p1, n)
        else
          let r := cbor_get_argument_loop mem uend (uend - p1) p1 0
          (CBOR_ERR_NONE, r.1, r.2)

/-- The function `cbor_get_uint64`. -/
def cbor_get_uint64 (mem : Mem) (p end_ : Nat) (n : Nat) : cbor_err × Nat × Nat :=
  let type := typeBits mem p
  if type ≠ CBOR_TYPE_UINT then (CBOR_ERR_TYPE_MISMATCH, p, n)
  else cbor_get_argument mem p end_ n

/-- The value of a 64-bit pattern read as `int64_t`. -/
def toInt64 (x : Int) : Int := (x + 2 ^ 63) % 2 ^ 64 - 2 ^ 63

/-- The function `cbor_get_int64`; the local `uv` starts as 0 and is read only
after `cbor_get_argument` has stored into it. -/
def cbor_get_int64 (mem : Mem) (p end_ : Nat) (n : Int) : cbor_err × Nat × Int :=
  let type := typeBits mem p
  if type ≠ CBOR_TYPE_NINT ∧ type ≠ CBOR_TYPE_UINT then (CBOR_ERR_TYPE_MISMATCH, p, n)
  else
    let r := cbor_get_argument mem p end_ 0
    let rc := r.1
    let p1 := r.2.1
    let uv := r.2.2
    if rc ≠ CBOR_ERR_NONE then (rc, p1, n)
    else if uv >>> 63 ≠ 0 then (CBOR_ERR_INTEGER_DECODE_OVERFLOW, p1, n)
    else if type = CBOR_TYPE_NINT then (rc, p1, toInt64 (-1 - toInt64 (uv : Int)))
    else (rc, p1, toInt64 (uv : Int))

/-- The type of the entries of the table `cbor_extractors`. -/
abbrev extractor := Mem → Nat → Nat → cbor_value_t → cbor_err × Nat × cbor_value_t

/-- The function `cbor_extract_uint`. -/
def cbor_extract_uint : extractor := fun mem p end_ val =>
  let r := cbor_get_uint64 mem p end_ val.u64
  (r.1, r.2.1, { val with u64 := r.2.2 })

/-- The function `cbor_extract_int`. -/
def cbor_extract_int : extractor := fun mem p end_ val =>
  let r := cbor_get_int64 mem p end_ val.i64
  (r.1, r.2.1, { val with i64 := r.2.2 })

/-- The function `cbor_extract_ref`. -/
def cbor_extract_ref : extractor := fun mem p end_ val =>
  let r := cbor_get_argument mem p end_ val.ref_length
  let rc := r.1
  let p1 := r.2.1
  let val := { val with ref_length := r.2.2 }
  if rc = CBOR_ERR_NONE then (rc, p1, { val with ref_ptr := p1 })
  else (rc, p1, val)

/-- The function `cbor_extract_stringref`.  After a successful
`cbor_get_argument` the cursor is at most `end_`, so `end - (*p)` is the
non-negative `end_ - p1`, compared with the length as an unsigned value.
`(*p) += val->ref.length` adds a 64-bit length that nothing bounds to a 64-bit
pointer: the sum is taken modulo `2^64`. -/
def cbor_extract_stringref : extractor := fun mem p end_ val =>
  let r := cbor_get_argument mem p end_ val.ref_length
  let rc := r.1
  let p1 := r.2.1
  let val := { val with ref_length := r.2.2 }
  if rc = CBOR_ERR_NONE then
    let val := { val with ref_ptr := p1 }
    if end_ - p1 ≤ val.ref_length then (rc, (p1 + val.ref_length) % 2 ^ 64, val)
    else (CBOR_ERR_OVERRUN, p1, val)
  else (rc, p1, val)

/-- The function `cbor_extract_tag`. -/
def cbor_extract_tag : extractor := fun _ p _ val =>
  (CBOR_ERR_UNIMPLEMENTED, p, val)

/-- The function `cbor_extract_primitive`. -/
def cbor_extract_primitive : extractor := fun mem p _ val =>
  (CBOR_ERR_NONE, p + 1, { val with primitive := low5 mem p })

/-- The function `cbor_check_type_extract_ref`. -/
def cbor_check_type_extract_ref (mem : Mem) (p end_ : Nat) (o_val : cbor_value_t)
    (cbor_type : Nat) : cbor_err × Nat × cbor_value_t :=
  if typeBits mem p ≠ cbor_type then (CBOR_ERR_TYPE_MISMATCH, p, o_val)
  else cbor_extract_ref mem p end_ { o_val with cbor_start := p }

/-- The table `cbor_extractors`, indexed by the major type `0..7`. -/
def cbor_extractors (handler_index : Nat) : extractor :=
  match handler_index with
  | 0 => cbor_extract_uint
  | 1 => cbor_extract_int
  | 2 => cbor_extract_stringref
  | 3 => cbor_extract_stringref
  | 4 => cbor_extract_ref
  | 5 => cbor_extract_ref
  | 6 => cbor_extract_tag
  | _ => cbor_extract_primitive

/-- The loop `for (count = len; count && rc == CBOR_ERR_NONE; count--)
rc = cbor_skip(p, end);` of `cbor_skip`, over the function `skip` that the
recursive call stands for (`none`: the call did not return). -/
def cbor_skip_loop (skip : Nat → Option (cbor_err × Nat)) :
    Nat → cbor_err → Nat → Option (cbor_err × Nat)
  | 0, rc, p => some (rc, p)
  | count + 1, rc, p =>
    if rc = CBOR_ERR_NONE then
      match skip p with
      | none => none
      | some r => cbor_skip_loop skip count r.1 r.2
    else some (rc, p)

/-- The function `cbor_skip`.  The first argument bounds the depth of the
recursion: with depth 0 left the call does not return (`none`). -/
def cbor_skip (mem : Mem) (end_ : Nat) : Nat → Nat → Option (cbor_err × Nat)
  | 0, _ => none
  | fuel + 1, p =>
    let ct := typeBits mem p
    let handler_index := ct >>> 5
    let r := cbor_extractors handler_index mem p end_ cbor_value_t.init
    let p1 := r.2.1
    let val := r.2.2
    let rc := if p1 > end_ then CBOR_ERR_OVERRUN else r.1
    if rc ≠ CBOR_ERR_NONE then some (rc, p1)
    else if ct = CBOR_TYPE_UINT ∨ ct = CBOR_TYPE_NINT ∨ ct = CBOR_TYPE_TSTR
        ∨ ct = CBOR_TYPE_BSTR ∨ ct = CBOR_TYPE_SIMPLE then some (rc, p1)
    else if ct = CBOR_TYPE_MAP then
      cbor_skip_loop (cbor_skip mem end_ fuel) ((val.ref_length * 2) % 2 ^ 64) rc p1
    else if ct = CBOR_TYPE_LIST then
      cbor_skip_loop (cbor_skip mem end_ fuel) val.ref_length rc p1
    else some (CBOR_ERR_UNIMPLEMENTED, p1)

/-- The major type of the octet at `p`: its top three bits. -/
def majorType (mem : Mem) (p : Nat) : Nat := (mem p).val / 32

/-- The octets of memory at the `k` addresses from `p` on. -/
def bytesAt (mem : Mem) : Nat → Nat → List Byte
  | _, 0 => []
  | p, k + 1 => mem p :: bytesAt mem (p + 1) k

/-- The big-endian interpretation of a sequence of octets. -/
def beValue (bs : List Byte) : Nat := bs.foldl (fun acc b => acc * 256 + b.val) 0

/-- The addresses `cbor_get_argument` dereferences, in the order of the reads:
the initial octet once the first bounds check has passed, then the octets of
the loop. -/
def cbor_get_argument_reads (mem : Mem) (p end_ : Nat) : List Nat :=
  if p ≥ end_ then []
  else
    let iv := low5 mem p
    if iv ≥ 28 then [p]
    else
      let p1 := p + 1
      if iv < 24 then [p]
      else
        let uend := p1 + (1 <<< (iv - 24))
        if uend > end_ then [p]
        else p :: List.range' p1 (uend - p1)

/-- The loop of `cbor_skip` once more, over a recursive call that also
reports the cursors of the invocations of `cbor_skip` it made; `calls` are the
invocations made so far. -/
def cbor_skip_loop_calls (skip : Nat → Option (cbor_err × Nat × List Nat)) :
    Nat → cbor_err → Nat → List Nat → Option (cbor_err × Nat × List Nat)
  | 0, rc, p, calls => some (rc, p, calls)
  | count + 1, rc, p, calls =>
    if rc = CBOR_ERR_NONE then
      match skip p with
      | none => none
      | some r => cbor_skip_loop_calls skip count r.1 r.2.1 (calls ++ r.2.2)
    else some (rc, p, calls)

/-- The function `cbor_skip` once more, returning next to the error code and
the cursor the list of the cursors at which `cbor_skip` was entered, in the
order of the calls, this call first.  Every entry of the list is an address
whose octet the call reads (`uint8_t ct = **p & CBOR_TYPE_MASK;`). -/
def cbor_skip_calls (mem : Mem) (end_ : Nat) :
    Nat → Nat → Option (cbor_err × Nat × List Nat)
  | 0, _ => none
  | fuel + 1, p =>
    let ct := typeBits mem p
    let handler_index := ct >>> 5
    let r := cbor_extractors handler_index mem p end_ cbor_value_t.init
    let p1 := r.2.1
    let val := r.2.2
    let rc := if p1 > end_ then CBOR_ERR_OVERRUN else r.1
    if rc ≠ CBOR_ERR_NONE then some (rc, p1, [p])
    else if ct = CBOR_TYPE_UINT ∨ ct = CBOR_TYPE_NINT ∨ ct = CBOR_TYPE_TSTR
        ∨ ct = CBOR_TYPE_BSTR ∨ ct = CBOR_TYPE_SIMPLE then some (rc, p1, [p])
    else if ct = CBOR_TYPE_MAP then
      cbor_skip_loop_calls (cbor_skip_calls mem end_ fuel)
        ((val.ref_length * 2) % 2 ^ 64) rc p1 [p]
    else if ct = CBOR_TYPE_LIST then
      cbor_skip_loop_calls (cbor_skip_calls mem end_ fuel) val.ref_length rc p1 [p]
    else some (CBOR_ERR_UNIMPLEMENTED, p1, [p])

/-! ## Well-formed items and their encodings

The vocabulary of the claims about `cbor_skip`: a tree of definite-length
items without tags, each header written with a chosen argument width, and the
octets that encode it. -/

/-- The octet with value `x % 256`. -/
def byteOf (x : Nat) : Byte := ⟨x % 256, Nat.mod_lt _ (by decide)⟩

/-- The argument of a header as written: `direct v` inside the initial octet
(`iv = v < 24`), or `ext k v` in the `2^k` octets that follow (`iv = 24 + k`). -/
inductive Arg
  | direct (v : Nat)
  | ext (k : Nat) (v : Nat)
  deriving DecidableEq, Repr

/-- The value the argument stands for. -/
def Arg.value : Arg → Nat
  | .direct v => v
  | .ext _ v => v

/-- The low five bits of the initial octet. -/
def Arg.iv : Arg → Nat
  | .direct v => v
  | .ext k _ => 24 + k

/-- The argument fits its width. -/
def Arg.wf : Arg → Bool
  | .direct v => decide (v < 24)
  | .ext k v => decide (k < 4) && decide (v < 256 ^ (2 ^ k))

/-- The `k` low-order octets of `v`, most significant first. -/
def beBytes : Nat → Nat → List Byte
  | 0, _ => []
  | k + 1, v => byteOf (v / 256 ^ k) :: beBytes k v

/-- The octets that follow the initial octet of a header. -/
def Arg.octets : Arg → List Byte
  | .direct _ => []
  | .ext k v => beBytes (2 ^ k) v

/-- The header of an item of major type `major` with argument `a`. -/
def header (major : Nat) (a : Arg) : List Byte :=
  byteOf (major * 32 + a.iv) :: a.octets

mutual
/-- A definite-length item without tags. -/
inductive Item
  | uint (a : Arg)
  | nint (a : Arg)
  | bstr (a : Arg) (payload : List Byte)
  | tstr (a : Arg) (payload : List Byte)
  | simple (v : Nat)
  | array (a : Arg) (items : Items)
  | map (a : Arg) (entries : Items)
/-- A sequence of items: the children of an array, or the keys and values of
a map in the order key, value, key, value, ... -/
inductive Items
  | nil
  | cons (head : Item) (tail : Items)
end

/-- The number of items of a sequence. -/
def Items.length : Items → Nat
  | .nil => 0
  | .cons _ t => t.length + 1

mutual
/-- The encoding of an item. -/
def Item.encode : Item → List Byte
  | .uint a => header 0 a
  | .nint a => header 1 a
  | .bstr a payload => header 2 a ++ payload
  | .tstr a payload => header 3 a ++ payload
  | .simple v => [byteOf (7 * 32 + v)]
  | .array a items => header 4 a ++ items.encode
  | .map a entries => header 5 a ++ entries.encode
/-- The encodings of the items of a sequence, one after the other. -/
def Items.encode : Items → List Byte
  | .nil => []
  | .cons h t => h.encode ++ t.encode
end

mutual
/-- Well-formedness: every argument fits its width, a string header carries
the length of its payload, an array header the number of its children, a map
header the number of its key/value pairs, a simple value is one octet. -/
def Item.wf : Item → Bool
  | .uint a => a.wf
  | .nint a => a.wf
  | .bstr a payload => a.wf && decide (a.value = payload.length)
  | .tstr a payload => a.wf && decide (a.value = payload.length)
  | .simple v => decide (v < 32)
  | .array a items => a.wf && decide (a.value = items.length) && items.wf
  | .map a entries => a.wf && decide (entries.length = 2 * a.value) && entries.wf
/-- Every item of the sequence is well-formed. -/
def Items.wf : Items → Bool
  | .nil => true
  | .cons h t => h.wf && t.wf
end

mutual
/-- The item contains no byte string and no text string. -/
def Item.stringFree : Item → Bool
  | .uint _ => true
  | .nint _ => true
  | .bstr _ _ => false
  | .tstr _ _ => false
  | .simple _ => true
  | .array _ items => items.stringFree
  | .map _ entries => entries.stringFree
/-- No item of the sequence contains a string. -/
def Items.stringFree : Items → Bool
  | .nil => true
  | .cons h t => h.stringFree && t.stringFree
end

mutual
/-- Every negative integer inside the item has an argument below `2^63`. -/
def Item.nintFits : Item → Bool
  | .uint _ => true
  | .nint a => decide (a.value < 2 ^ 63)
  | .bstr _ _ => true
  | .tstr _ _ => true
  | .simple _ => true
  | .array _ items => items.nintFits
  | .map _ entries => entries.nintFits
/-- Every negative integer inside the sequence has an argument below `2^63`. -/
def Items.nintFits : Items → Bool
  | .nil => true
  | .cons h t => h.nintFits && t.nintFits
end

mutual
/-- The nesting depth of an item: 1 for a leaf. -/
def Item.depth : Item → Nat
  | .uint _ => 1
  | .nint _ => 1
  | .bstr _ _ => 1
  | .tstr _ _ => 1
  | .simple _ => 1
  | .array _ items => items.depth + 1
  | .map _ entries => entries.depth + 1
/-- The greatest nesting depth among the items of a sequence. -/
def Items.depth : Items → Nat
  | .nil => 0
  | .cons h t => max h.depth t.depth
end

/-! ## Octet arithmetic -/

set_option maxRecDepth 100000 in
theorem and_31_eq (b : Byte) : b.val &&& 31 = b.val % 32 := by
  revert b; decide

set_option maxRecDepth 100000 in
theorem and_224_eq (b : Byte) : b.val &&& 224 = b.val / 32 * 32 := by
  revert b; decide

theorem low5_eq (mem : Mem) (p : Nat) : low5 mem p = (mem p).val % 32 := by
  have h : 255 - CBOR_TYPE_MASK = 31 := by decide
  unfold low5
  rw [h]
  exact and_31_eq (mem p)

theorem typeBits_eq (mem : Mem) (p : Nat) : typeBits mem p = majorType mem p * 32 := by
  have h : CBOR_TYPE_MASK = 224 := by decide
  unfold typeBits majorType
  rw [h]
  exact and_224_eq (mem p)

theorem majorType_lt (mem : Mem) (p : Nat) : majorType mem p < 8 := by
  have := (mem p).isLt
  unfold majorType
  omega

theorem shl8_or (n b : Nat) (hn : n * 256 < 2 ^ 64) (hb : b < 256) :
    ((n <<< 8) % 2 ^ 64) ||| b = n * 256 + b := by
  have h1 : n <<< 8 = n * 256 := by rw [Nat.shiftLeft_eq]
  have h2 : (2 : Nat) ^ 8 * n + b = 2 ^ 8 * n ||| b := Nat.mul_add_lt_is_or hb n
  rw [h1, Nat.mod_eq_of_lt hn]
  have h3 : (2 : Nat) ^ 8 * n = n * 256 := by omega
  rw [h3] at h2
  exact h2.symm

/-! ## The argument decoder -/

theorem loop_spec (mem : Mem) (uend : Nat) : ∀ (k p n j : Nat), p + k = uend →
    n < 256 ^ j → j + k ≤ 8 →
    cbor_get_argument_loop mem uend k p n
      = (uend, (bytesAt mem p k).foldl (fun acc b => acc * 256 + b.val) n)
  | 0, p, n, _, h, _, _ => by
    simp only [cbor_get_argument_loop, bytesAt, List.foldl_nil]
    rw [← h]; rfl
  | k + 1, p, n, j, h, hn, hj => by
    have hlt : p < uend := by omega
    have hb := (mem p).isLt
    have h1 : n * 256 + (mem p).val < 256 ^ (j + 1) := by
      rw [pow_succ]; omega
    have h2 : 256 ^ (j + 1) ≤ 2 ^ 64 :=
      calc 256 ^ (j + 1) ≤ 256 ^ 8 := Nat.pow_le_pow_right (by norm_num) (by omega)
        _ = 2 ^ 64 := by norm_num
    have h3 : ((n <<< 8) % 2 ^ 64) ||| (mem p).val = n * 256 + (mem p).val :=
      shl8_or n _ (by omega) hb
    simp only [cbor_get_argument_loop, if_pos hlt, bytesAt, List.foldl_cons, h3]
    exact loop_spec mem uend k (p + 1) _ (j + 1) (by omega) h1 (by omega)

theorem get_argument_overrun_at_end (mem : Mem) (p end_ n : Nat) (h : end_ ≤ p) :
    cbor_get_argument mem p end_ n = (CBOR_ERR_OVERRUN, p, n) := by
  unfold cbor_get_argument
  rw [if_pos h]

theorem get_argument_encoding (mem : Mem) (p end_ n : Nat) (h : p < end_)
    (hiv : 28 ≤ (mem p).val % 32) :
    cbor_get_argument mem p end_ n = (CBOR_ERR_INTEGER_ENCODING, p, n) := by
  unfold cbor_get_argument
  rw [if_neg (by omega)]
  simp only [low5_eq]
  rw [if_pos hiv]

theorem get_argument_short (mem : Mem) (p end_ n : Nat) (h : p < end_)
    (hiv : (mem p).val % 32 < 24) :
    cbor_get_argument mem p end_ n = (CBOR_ERR_NONE, p + 1, (mem p).val % 32) := by
  unfold cbor_get_argument
  rw [if_neg (by omega)]
  simp only [low5_eq]
  rw [if_neg (by omega), if_pos hiv]

theorem get_argument_truncated (mem : Mem) (p end_ n : Nat) (h : p < end_)
    (h24 : 24 ≤ (mem p).val % 32) (h27 : (mem p).val % 32 ≤ 27)
    (hshort : end_ < p + 1 + 2 ^ ((mem p).val % 32 - 24)) :
    cbor_get_argument mem p end_ n = (CBOR_ERR_OVERRUN, p + 1, n) := by
  unfold cbor_get_argument
  rw [if_neg (by omega)]
  simp only [low5_eq, Nat.one_shiftLeft]
  rw [if_neg (by omega), if_neg (by omega), if_pos (by omega)]

theorem get_argument_ext (mem : Mem) (p end_ n : Nat) (h : p < end_)
    (h24 : 24 ≤ (mem p).val % 32) (h27 : (mem p).val % 32 ≤ 27)
    (hfit : p + 1 + 2 ^ ((mem p).val % 32 - 24) ≤ end_) :
    cbor_get_argument mem p end_ n
      = (CBOR_ERR_NONE, p + 1 + 2 ^ ((mem p).val % 32 - 24),
          beValue (bytesAt mem (p + 1) (2 ^ ((mem p).val % 32 - 24)))) := by
  unfold cbor_get_argument
  rw [if_neg (by omega)]
  simp only [low5_eq, Nat.one_shiftLeft]
  rw [if_neg (by omega), if_neg (by omega), if_neg (by omega)]
  have hk : 2 ^ ((mem p).val % 32 - 24) ≤ 8 := by
    have h3 : (mem p).val % 32 - 24 ≤ 3 := by omega
    calc 2 ^ ((mem p).val % 32 - 24) ≤ 2 ^ 3 := Nat.pow_le_pow_right (by norm_num) h3
      _ = 8 := by norm_num
  have hpos : 0 < 2 ^ ((mem p).val % 32 - 24) := Nat.two_pow_pos _
  have hl := loop_spec mem (p + 1 + 2 ^ ((mem p).val % 32 - 24))
    (p + 1 + 2 ^ ((mem p).val % 32 - 24) - (p + 1)) (p + 1) 0 0 (by omega) (by norm_num)
    (by omega)
  rw [hl]
  have he : p + 1 + 2 ^ ((mem p).val % 32 - 24) - (p + 1) = 2 ^ ((mem p).val % 32 - 24) := by
    omega
  rw [he]
  rfl

theorem loop_congr (mem mem' : Mem) (uend : Nat) : ∀ (k p n : Nat),
    (∀ a, p ≤ a → a < p + k → mem' a = mem a) →
    cbor_get_argument_loop mem' uend k p n = cbor_get_argument_loop mem uend k p n
  | 0, _, _, _ => rfl
  | k + 1, p, n, h => by
    simp only [cbor_get_argument_loop]
    rw [h p (Nat.le_refl p) (by omega)]
    rw [loop_congr mem mem' uend k (p + 1) _ (fun a h1 h2 => h a (by omega) (by omega))]

theorem get_argument_reads_bounds (mem : Mem) (p end_ : Nat) :
    ∀ a ∈ cbor_get_argument_reads mem p end_, p ≤ a ∧ a < end_ := by
  intro a ha
  unfold cbor_get_argument_reads at ha
  by_cases h0 : p ≥ end_
  · rw [if_pos h0] at ha; simp at ha
  · rw [if_neg h0] at ha
    simp only at ha
    by_cases h1 : low5 mem p ≥ 28
    · rw [if_pos h1] at ha; simp at ha; omega
    · rw [if_neg h1] at ha
      by_cases h2 : low5 mem p < 24
      · rw [if_pos h2] at ha; simp at ha; omega
      · rw [if_neg h2] at ha
        by_cases h3 : p + 1 + 1 <<< (low5 mem p - 24) > end_
        · rw [if_pos h3] at ha; simp at ha; omega
        · rw [if_neg h3] at ha
          rw [List.mem_cons, List.mem_range'_1] at ha
          omega

theorem get_argument_congr (mem mem' : Mem) (p end_ n : Nat)
    (hlow : p < end_ → low5 mem' p = low5 mem p)
    (hrest : ∀ a ∈ cbor_get_argument_reads mem p end_, a ≠ p → mem' a = mem a) :
    cbor_get_argument mem' p end_ n = cbor_get_argument mem p end_ n := by
  unfold cbor_get_argument
  unfold cbor_get_argument_reads at hrest
  by_cases h0 : p ≥ end_
  · simp only [if_pos h0]
  · simp only [if_neg h0]
    rw [if_neg h0] at hrest
    simp only at hrest
    rw [hlow (by omega)]
    by_cases h1 : low5 mem p ≥ 28
    · simp only [if_pos h1]
    · simp only [if_neg h1]
      rw [if_neg h1] at hrest
      by_cases h2 : low5 mem p < 24
      · simp only [if_pos h2]
      · simp only [if_neg h2]
        rw [if_neg h2] at hrest
        by_cases h3 : p + 1 + 1 <<< (low5 mem p - 24) > end_
        · simp only [if_pos h3]
        · simp only [if_neg h3]
          rw [if_neg h3] at hrest
          rw [loop_congr mem mem']
          intro a ha1 ha2
          apply hrest a _ (by omega)
          rw [List.mem_cons, List.mem_range'_1]
          right
          exact ⟨ha1, ha2⟩

theorem get_argument_frame (mem mem' : Mem) (p end_ n : Nat)
    (h : ∀ a ∈ cbor_get_argument_reads mem p end_, mem' a = mem a) :
    cbor_get_argument mem' p end_ n = cbor_get_argument mem p end_ n := by
  apply get_argument_congr
  · intro hp
    have hmem : p ∈ cbor_get_argument_reads mem p end_ := by
      unfold cbor_get_argument_reads
      rw [if_neg (by omega)]
      simp only
      split_ifs <;> simp
    unfold low5
    rw [h p hmem]
  · intro a ha _
    exact h a ha

theorem get_argument_cursor_le (mem : Mem) (p end_ n : Nat) (hp : p ≤ end_) :
    (cbor_get_argument mem p end_ n).2.1 ≤ end_ := by
  by_cases h0 : p ≥ end_
  · rw [get_argument_overrun_at_end mem p end_ n h0]; exact hp
  · have hlt : p < end_ := by omega
    have hiv : (mem p).val % 32 < 32 := Nat.mod_lt _ (by norm_num)
    by_cases h1 : 28 ≤ (mem p).val % 32
    · rw [get_argument_encoding mem p end_ n hlt h1]; exact hp
    · by_cases h2 : (mem p).val % 32 < 24
      · rw [get_argument_short mem p end_ n hlt h2]; exact hlt
      · by_cases h3 : end_ < p + 1 + 2 ^ ((mem p).val % 32 - 24)
        · rw [get_argument_truncated mem p end_ n hlt (by omega) (by omega) h3]; exact hlt
        · rw [get_argument_ext mem p end_ n hlt (by omega) (by omega) (by omega)]
          simp only
          omega

/-! ## Claims about the argument decoder -/

/-- C4: with the cursor before `end_`, an initial octet whose low five bits
`iv` are below 24 decodes to the value `iv` and the cursor moves by one;
for `iv` in 24..27 with `2^(iv-24)` octets following before `end_`, the value
is the big-endian reading of those octets and the cursor moves by
`1 + 2^(iv-24)`; changing only the three major-type bits of the initial octet
changes nothing in the result. -/
theorem C4_get_argument_value (mem : Mem) (p end_ n : Nat) (hp : p < end_) :
    ((mem p).val % 32 < 24 →
      cbor_get_argument mem p end_ n = (CBOR_ERR_NONE, p + 1, (mem p).val % 32))
    ∧ (24 ≤ (mem p).val % 32 → (mem p).val % 32 ≤ 27 →
        p + 1 + 2 ^ ((mem p).val % 32 - 24) ≤ end_ →
        cbor_get_argument mem p end_ n
          = (CBOR_ERR_NONE, p + 1 + 2 ^ ((mem p).val % 32 - 24),
              beValue (bytesAt mem (p + 1) (2 ^ ((mem p).val % 32 - 24)))))
    ∧ (∀ mem' : Mem, (∀ a, a ≠ p → mem' a = mem a) →
        (mem' p).val % 32 = (mem p).val % 32 →
        cbor_get_argument mem' p end_ n = cbor_get_argument mem p end_ n) := by
  refine ⟨get_argument_short mem p end_ n hp, get_argument_ext mem p end_ n hp, ?_⟩
  intro mem' hrest hlow
  apply get_argument_congr
  · intro _
    rw [low5_eq, low5_eq, hlow]
  · intro a _ hne
    exact hrest a hne

/-- C4 at `[0x39, 0x01, 0x02]` (a negative-integer header with a two-octet
argument): value `0x0102`, cursor moved by 3, the same as for the
unsigned-integer header `[0x19, 0x01, 0x02]`. -/
theorem C4_get_argument_value_witness :
    (0 : Nat) < 3
    ∧ cbor_get_argument (memOf [0x39, 0x01, 0x02]) 0 3 0 = (CBOR_ERR_NONE, 3, 258)
    ∧ cbor_get_argument (memOf [0x19, 0x01, 0x02]) 0 3 0
        = cbor_get_argument (memOf [0x39, 0x01, 0x02]) 0 3 0 := by
  have h := C4_get_argument_value (memOf [0x39, 0x01, 0x02]) 0 3 0 (by decide)
  refine ⟨by decide, ?_, ?_⟩
  · exact h.2.1 (by decide) (by decide) (by decide)
  · apply h.2.2
    · intro a ha
      match a, ha with
      | 0, ha => exact absurd rfl ha
      | 1, _ => rfl
      | 2, _ => rfl
      | _ + 3, _ => rfl
    · decide

/-- C5: with the cursor at `end_`, or before `end_` at an initial octet with
`iv` in 24..27 and fewer than `2^(iv-24)` octets between it and `end_`,
`cbor_get_argument` returns CBOR_ERR_OVERRUN, the cursor after the call is at
most `end_`, every address it reads lies in `[p, end_)`, and its result is the
same for every memory that agrees on the addresses it reads. -/
theorem C5_get_argument_overrun (mem : Mem) (p end_ n : Nat) (hp : p ≤ end_)
    (h : p = end_ ∨ (p < end_ ∧ 24 ≤ (mem p).val % 32 ∧ (mem p).val % 32 ≤ 27
      ∧ end_ - (p + 1) < 2 ^ ((mem p).val % 32 - 24))) :
    (cbor_get_argument mem p end_ n).1 = CBOR_ERR_OVERRUN
    ∧ (cbor_get_argument mem p end_ n).2.1 ≤ end_
    ∧ (∀ a ∈ cbor_get_argument_reads mem p end_, p ≤ a ∧ a < end_)
    ∧ (∀ mem' : Mem, (∀ a ∈ cbor_get_argument_reads mem p end_, mem' a = mem a) →
        cbor_get_argument mem' p end_ n = cbor_get_argument mem p end_ n) := by
  refine ⟨?_, get_argument_cursor_le mem p end_ n hp,
    get_argument_reads_bounds mem p end_, fun mem' => get_argument_frame mem mem' p end_ n⟩
  rcases h with h | ⟨h1, h2, h3, h4⟩
  · rw [get_argument_overrun_at_end mem p end_ n (by omega)]
  · rw [get_argument_truncated mem p end_ n h1 h2 h3 (by omega)]

/-- C5 at `[0x19, 0x01]` with `end_ = 2`: two argument octets announced, one
present, the only address read is 0; and at the empty range `p = end_ = 2`,
where nothing is read. -/
theorem C5_get_argument_overrun_witness :
    ((cbor_get_argument (memOf [0x19, 0x01]) 0 2 0).1 = CBOR_ERR_OVERRUN
      ∧ (cbor_get_argument (memOf [0x19, 0x01]) 0 2 0).2.1 ≤ 2
      ∧ cbor_get_argument_reads (memOf [0x19, 0x01]) 0 2 = [0])
    ∧ ((cbor_get_argument (memOf [0x19, 0x01]) 2 2 0).1 = CBOR_ERR_OVERRUN
      ∧ cbor_get_argument_reads (memOf [0x19, 0x01]) 2 2 = []) := by
  have h := C5_get_argument_overrun (memOf [0x19, 0x01]) 0 2 0 (by decide)
    (Or.inr (by decide))
  have h2 := C5_get_argument_overrun (memOf [0x19, 0x01]) 2 2 0 (by decide)
    (Or.inl rfl)
  exact ⟨⟨h.1, h.2.1, by decide⟩, ⟨h2.1, by decide⟩⟩

/-- C6: with the cursor before `end_` at an initial octet whose low five bits
are in 28..31, `cbor_get_argument` fails with CBOR_ERR_INTEGER_ENCODING for
every memory (so whatever the major-type bits and the following octets are),
the cursor and the output stay as they were, and the cursor is at most
`end_`. -/
theorem C6_get_argument_reserved (mem : Mem) (p end_ n : Nat) (hp : p < end_)
    (hiv : 28 ≤ (mem p).val % 32 ∧ (mem p).val % 32 ≤ 31) :
    cbor_get_argument mem p end_ n = (CBOR_ERR_INTEGER_ENCODING, p, n)
    ∧ (cbor_get_argument mem p end_ n).2.1 ≤ end_ := by
  have h := get_argument_encoding mem p end_ n hp hiv.1
  rw [h]
  exact ⟨rfl, Nat.le_of_lt hp⟩

/-- C6 at `[0x5F, 0x01]`: a byte-string header with low bits 31. -/
theorem C6_get_argument_reserved_witness :
    cbor_get_argument (memOf [0x5F, 0x01]) 0 2 7 = (CBOR_ERR_INTEGER_ENCODING, 0, 7) :=
  (C6_get_argument_reserved (memOf [0x5F, 0x01]) 0 2 7 (by decide) (by decide)).1

/-! ## The integer extractors -/

theorem get_argument_none_indep (mem : Mem) (p end_ n0 n1 p' m : Nat)
    (h : cbor_get_argument mem p end_ n0 = (CBOR_ERR_NONE, p', m)) :
    cbor_get_argument mem p end_ n1 = (CBOR_ERR_NONE, p', m) := by
  by_cases h0 : p ≥ end_
  · rw [get_argument_overrun_at_end mem p end_ n0 h0] at h
    simp at h
  · have hlt : p < end_ := by omega
    by_cases h1 : 28 ≤ (mem p).val % 32
    · rw [get_argument_encoding mem p end_ n0 hlt h1] at h
      simp at h
    · by_cases h2 : (mem p).val % 32 < 24
      · rw [get_argument_short mem p end_ n0 hlt h2] at h
        rw [get_argument_short mem p end_ n1 hlt h2]
        exact h
      · by_cases h3 : end_ < p + 1 + 2 ^ ((mem p).val % 32 - 24)
        · rw [get_argument_truncated mem p end_ n0 hlt (by omega) (by omega) h3] at h
          simp at h
        · rw [get_argument_ext mem p end_ n0 hlt (by omega) (by omega) (by omega)] at h
          rw [get_argument_ext mem p end_ n1 hlt (by omega) (by omega) (by omega)]
          exact h

theorem toInt64_of_range (x : Int) (h1 : -2 ^ 63 ≤ x) (h2 : x < 2 ^ 63) : toInt64 x = x := by
  unfold toInt64
  omega

theorem shr63_ne_zero_iff (uv : Nat) : uv >>> 63 ≠ 0 ↔ 2 ^ 63 ≤ uv := by
  rw [Nat.shiftRight_eq_div_pow]
  constructor
  · intro h
    by_contra hlt
    exact h (Nat.div_eq_of_lt (by omega))
  · intro h h0
    have := Nat.div_pos h (by norm_num : 0 < 2 ^ 63)
    omega

theorem typeBits_uint_iff (mem : Mem) (p : Nat) :
    typeBits mem p = CBOR_TYPE_UINT ↔ majorType mem p = 0 := by
  have h : CBOR_TYPE_UINT = 0 := by decide
  rw [typeBits_eq, h]
  omega

theorem typeBits_nint_iff (mem : Mem) (p : Nat) :
    typeBits mem p = CBOR_TYPE_NINT ↔ majorType mem p = 1 := by
  have h : CBOR_TYPE_NINT = 32 := by decide
  rw [typeBits_eq, h]
  omega

theorem get_int64_mismatch (mem : Mem) (p end_ : Nat) (n : Int)
    (h0 : majorType mem p ≠ 0) (h1 : majorType mem p ≠ 1) :
    cbor_get_int64 mem p end_ n = (CBOR_ERR_TYPE_MISMATCH, p, n) := by
  unfold cbor_get_int64
  simp only [ne_eq, typeBits_uint_iff, typeBits_nint_iff]
  rw [if_pos ⟨h1, h0⟩]

theorem get_int64_overflow (mem : Mem) (p end_ n0 p' uv : Nat) (n : Int)
    (ht : majorType mem p = 0 ∨ majorType mem p = 1)
    (hdec : cbor_get_argument mem p end_ n0 = (CBOR_ERR_NONE, p', uv))
    (hbig : 2 ^ 63 ≤ uv) :
    cbor_get_int64 mem p end_ n = (CBOR_ERR_INTEGER_DECODE_OVERFLOW, p', n) := by
  have hdec0 := get_argument_none_indep mem p end_ n0 0 p' uv hdec
  unfold cbor_get_int64
  simp only [ne_eq, typeBits_uint_iff, typeBits_nint_iff, hdec0]
  rw [if_neg (by omega), if_neg (by simp), if_pos ((shr63_ne_zero_iff uv).2 hbig)]

theorem get_int64_nint (mem : Mem) (p end_ n0 p' uv : Nat) (n : Int)
    (ht : majorType mem p = 1)
    (hdec : cbor_get_argument mem p end_ n0 = (CBOR_ERR_NONE, p', uv))
    (hsmall : uv < 2 ^ 63) :
    cbor_get_int64 mem p end_ n = (CBOR_ERR_NONE, p', -1 - (uv : Int)) := by
  have hdec0 := get_argument_none_indep mem p end_ n0 0 p' uv hdec
  have hs : ¬ uv >>> 63 ≠ 0 := by rw [shr63_ne_zero_iff]; omega
  have e1 : toInt64 (uv : Int) = uv := toInt64_of_range _ (by omega) (by omega)
  have e2 : toInt64 (-1 - (uv : Int)) = -1 - (uv : Int) :=
    toInt64_of_range _ (by omega) (by omega)
  unfold cbor_get_int64
  simp only [ne_eq, typeBits_uint_iff, typeBits_nint_iff, hdec0]
  rw [if_neg (by omega), if_neg (by simp), if_neg hs, if_pos ht, e1, e2]

theorem get_int64_uint (mem : Mem) (p end_ n0 p' uv : Nat) (n : Int)
    (ht : majorType mem p = 0)
    (hdec : cbor_get_argument mem p end_ n0 = (CBOR_ERR_NONE, p', uv))
    (hsmall : uv < 2 ^ 63) :
    cbor_get_int64 mem p end_ n = (CBOR_ERR_NONE, p', (uv : Int)) := by
  have hdec0 := get_argument_none_indep mem p end_ n0 0 p' uv hdec
  have hs : ¬ uv >>> 63 ≠ 0 := by rw [shr63_ne_zero_iff]; omega
  have e1 : toInt64 (uv : Int) = uv := toInt64_of_range _ (by omega) (by omega)
  unfold cbor_get_int64
  simp only [ne_eq, typeBits_uint_iff, typeBits_nint_iff, hdec0]
  rw [if_neg (by omega), if_neg (by simp), if_neg hs, if_neg (by omega), e1]

/-- C7: when the argument of the header at the cursor decodes successfully
to a magnitude `m < 2^63`, then for major type 1 `cbor_get_int64` and
`cbor_extract_int` succeed with the integer `-1 - m`, which lies in
`[-2^63, -1]`, and for major type 0 they succeed with `m`; in both cases the
cursor is where `cbor_get_argument` leaves it. -/
theorem C7_get_int64_value (mem : Mem) (p end_ n0 p' m : Nat) (n : Int) (val : cbor_value_t)
    (hdec : cbor_get_argument mem p end_ n0 = (CBOR_ERR_NONE, p', m))
    (hm : m < 2 ^ 63) :
    (majorType mem p = 1 →
      cbor_get_int64 mem p end_ n = (CBOR_ERR_NONE, p', -1 - (m : Int))
      ∧ cbor_extract_int mem p end_ val
          = (CBOR_ERR_NONE, p', { val with i64 := -1 - (m : Int) })
      ∧ -2 ^ 63 ≤ -1 - (m : Int) ∧ -1 - (m : Int) ≤ -1)
    ∧ (majorType mem p = 0 →
      cbor_get_int64 mem p end_ n = (CBOR_ERR_NONE, p', (m : Int))
      ∧ cbor_extract_int mem p end_ val = (CBOR_ERR_NONE, p', { val with i64 := (m : Int) })) := by
  constructor
  · intro ht
    refine ⟨get_int64_nint mem p end_ n0 p' m n ht hdec hm, ?_, by omega, by omega⟩
    unfold cbor_extract_int
    rw [get_int64_nint mem p end_ n0 p' m val.i64 ht hdec hm]
  · intro ht
    refine ⟨get_int64_uint mem p end_ n0 p' m n ht hdec hm, ?_⟩
    unfold cbor_extract_int
    rw [get_int64_uint mem p end_ n0 p' m val.i64 ht hdec hm]

/-- C7 at the buffer `[0x20]`: the signed value is -1. -/
theorem C7_get_int64_value_witness :
    cbor_get_argument (memOf [0x20]) 0 1 0 = (CBOR_ERR_NONE, 1, 0)
    ∧ (0 : Nat) < 2 ^ 63
    ∧ cbor_get_int64 (memOf [0x20]) 0 1 5 = (CBOR_ERR_NONE, 1, -1) :=
  ⟨by decide, by decide,
    ((C7_get_int64_value (memOf [0x20]) 0 1 0 1 0 5 cbor_value_t.init (by decide)
      (by decide)).1 (by decide)).1⟩

/-- C8: for a header of major type 0 or 1 whose argument decodes successfully
to `uv`, `cbor_get_int64` returns CBOR_ERR_INTEGER_DECODE_OVERFLOW exactly
when `uv ≥ 2^63` and CBOR_ERR_NONE otherwise; for a header of any other major
type it returns CBOR_ERR_TYPE_MISMATCH with cursor and output untouched. -/
theorem C8_get_int64_errors (mem : Mem) (p end_ : Nat) (n : Int) :
    (∀ n0 p' uv : Nat, (majorType mem p = 0 ∨ majorType mem p = 1) →
      cbor_get_argument mem p end_ n0 = (CBOR_ERR_NONE, p', uv) →
      ((cbor_get_int64 mem p end_ n).1 = CBOR_ERR_INTEGER_DECODE_OVERFLOW ↔ 2 ^ 63 ≤ uv)
      ∧ (uv < 2 ^ 63 → (cbor_get_int64 mem p end_ n).1 = CBOR_ERR_NONE))
    ∧ (majorType mem p ≠ 0 → majorType mem p ≠ 1 →
      cbor_get_int64 mem p end_ n = (CBOR_ERR_TYPE_MISMATCH, p, n)) := by
  refine ⟨?_, get_int64_mismatch mem p end_ n⟩
  intro n0 p' uv ht hdec
  have hsmall : uv < 2 ^ 63 → (cbor_get_int64 mem p end_ n).1 = CBOR_ERR_NONE := by
    intro hlt
    rcases ht with ht | ht
    · rw [get_int64_uint mem p end_ n0 p' uv n ht hdec hlt]
    · rw [get_int64_nint mem p end_ n0 p' uv n ht hdec hlt]
  refine ⟨⟨?_, ?_⟩, hsmall⟩
  · intro hov
    by_contra hlt
    rw [hsmall (by omega)] at hov
    exact absurd hov (by decide)
  · intro hbig
    rw [get_int64_overflow mem p end_ n0 p' uv n ht hdec hbig]

/-- C8 at `[0x3B, 0x80, 0, 0, 0, 0, 0, 0, 0]` (magnitude `2^63`, overflow) and
at `[0x40]` (a byte string, type mismatch). -/
theorem C8_get_int64_errors_witness :
    (cbor_get_int64 (memOf [0x3B, 0x80, 0, 0, 0, 0, 0, 0, 0]) 0 9 0).1
      = CBOR_ERR_INTEGER_DECODE_OVERFLOW
    ∧ cbor_get_int64 (memOf [0x40]) 0 1 0 = (CBOR_ERR_TYPE_MISMATCH, 0, 0) :=
  ⟨(((C8_get_int64_errors (memOf [0x3B, 0x80, 0, 0, 0, 0, 0, 0, 0]) 0 9 0).1
      0 9 (2 ^ 63) (by decide) (by decide)).1).2 (by decide),
    (C8_get_int64_errors (memOf [0x40]) 0 1 0).2 (by decide) (by decide)⟩

/-- C9: when the major type of the octet at the cursor is not 0,
`cbor_get_uint64` and `cbor_extract_uint` return CBOR_ERR_TYPE_MISMATCH and
leave the cursor and the output as they were; when it is 0, the return code,
the output value and the final cursor are those of `cbor_get_argument` on the
same input. -/
theorem C9_get_uint64 (mem : Mem) (p end_ n : Nat) (val : cbor_value_t) (_hp : p < end_) :
    (majorType mem p ≠ 0 →
      cbor_get_uint64 mem p end_ n = (CBOR_ERR_TYPE_MISMATCH, p, n)
      ∧ cbor_extract_uint mem p end_ val = (CBOR_ERR_TYPE_MISMATCH, p, val))
    ∧ (majorType mem p = 0 →
      cbor_get_uint64 mem p end_ n = cbor_get_argument mem p end_ n
      ∧ cbor_extract_uint mem p end_ val
          = ((cbor_get_argument mem p end_ val.u64).1,
              (cbor_get_argument mem p end_ val.u64).2.1,
              { val with u64 := (cbor_get_argument mem p end_ val.u64).2.2 })) := by
  constructor
  · intro ht
    have h : ∀ k, cbor_get_uint64 mem p end_ k = (CBOR_ERR_TYPE_MISMATCH, p, k) := by
      intro k
      unfold cbor_get_uint64
      simp only [ne_eq, typeBits_uint_iff]
      rw [if_pos ht]
    refine ⟨h n, ?_⟩
    unfold cbor_extract_uint
    rw [h]
  · intro ht
    have h : ∀ k, cbor_get_uint64 mem p end_ k = cbor_get_argument mem p end_ k := by
      intro k
      unfold cbor_get_uint64
      simp only [ne_eq, typeBits_uint_iff]
      rw [if_neg (by simp [ht])]
    refine ⟨h n, ?_⟩
    unfold cbor_extract_uint
    rw [h]

/-- C9 at the buffers `[0x00]` (value 0, one octet) and `[0x18, 0xFF]` (value
255, two octets), and at `[0x20]` (type mismatch). -/
theorem C9_get_uint64_witness :
    cbor_get_uint64 (memOf [0x00]) 0 1 9 = (CBOR_ERR_NONE, 1, 0)
    ∧ cbor_get_uint64 (memOf [0x18, 0xFF]) 0 2 9 = (CBOR_ERR_NONE, 2, 255)
    ∧ cbor_get_uint64 (memOf [0x20]) 0 1 9 = (CBOR_ERR_TYPE_MISMATCH, 0, 9) := by
  have h0 := ((C9_get_uint64 (memOf [0x00]) 0 1 9 cbor_value_t.init (by decide)).2
    (by decide)).1
  have h1 := ((C9_get_uint64 (memOf [0x18, 0xFF]) 0 2 9 cbor_value_t.init (by decide)).2
    (by decide)).1
  have h2 := ((C9_get_uint64 (memOf [0x20]) 0 1 9 cbor_value_t.init (by decide)).1
    (by decide)).1
  refine ⟨?_, ?_, h2⟩
  · rw [h0]; decide
  · rw [h1]; decide

/-! ## Memory holding an encoding -/

theorem bytesAt_length (mem : Mem) : ∀ (k p : Nat), (bytesAt mem p k).length = k
  | 0, _ => rfl
  | k + 1, p => by simp [bytesAt, bytesAt_length mem k (p + 1)]

theorem bytesAt_add (mem : Mem) : ∀ (a p b : Nat),
    bytesAt mem p (a + b) = bytesAt mem p a ++ bytesAt mem (p + a) b
  | 0, p, b => by simp [bytesAt]
  | a + 1, p, b => by
    have e : a + 1 + b = (a + b) + 1 := by omega
    have e2 : p + (a + 1) = p + 1 + a := by omega
    rw [e, e2]
    simp only [bytesAt, List.cons_append]
    rw [bytesAt_add mem a (p + 1) b]

theorem bytesAt_append (mem : Mem) (p : Nat) (xs ys : List Byte)
    (h : bytesAt mem p (xs ++ ys).length = xs ++ ys) :
    bytesAt mem p xs.length = xs ∧ bytesAt mem (p + xs.length) ys.length = ys := by
  rw [List.length_append, bytesAt_add] at h
  exact List.append_inj h (bytesAt_length mem _ _)

theorem bytesAt_cons (mem : Mem) (p : Nat) (x : Byte) (xs : List Byte)
    (h : bytesAt mem p (x :: xs).length = x :: xs) :
    mem p = x ∧ bytesAt mem (p + 1) xs.length = xs := by
  simp only [List.length_cons, bytesAt, List.cons.injEq] at h
  exact h

theorem beBytes_length : ∀ (k v : Nat), (beBytes k v).length = k
  | 0, _ => rfl
  | k + 1, v => by simp [beBytes, beBytes_length k v]

theorem foldl_beBytes : ∀ (k v n0 : Nat),
    (beBytes k v).foldl (fun acc b => acc * 256 + b.val) n0 = n0 * 256 ^ k + v % 256 ^ k
  | 0, v, n0 => by simp [beBytes, Nat.mod_one]
  | k + 1, v, n0 => by
    simp only [beBytes, List.foldl_cons]
    rw [foldl_beBytes k v, Nat.mod_pow_succ]
    have hb : (byteOf (v / 256 ^ k)).val = v / 256 ^ k % 256 := rfl
    rw [hb, pow_succ]
    ring

theorem beValue_beBytes (k v : Nat) (h : v < 256 ^ k) : beValue (beBytes k v) = v := by
  unfold beValue
  rw [foldl_beBytes, Nat.mod_eq_of_lt h]
  simp

theorem header_length_pos (major : Nat) (a : Arg) : 1 ≤ (header major a).length := by
  simp [header]

theorem header_decode (major : Nat) (a : Arg) (mem : Mem) (p end_ n : Nat)
    (hmaj : major < 8) (hwf : a.wf = true)
    (hmem : bytesAt mem p (header major a).length = header major a)
    (hend : p + (header major a).length ≤ end_) :
    majorType mem p = major
    ∧ cbor_get_argument mem p end_ n
        = (CBOR_ERR_NONE, p + (header major a).length, a.value) := by
  unfold header at hmem hend
  obtain ⟨h0, hrest⟩ := bytesAt_cons mem p _ _ hmem
  have hlt : p < end_ := by
    simp only [List.length_cons] at hend
    omega
  cases a with
  | direct v =>
    simp only [Arg.wf, decide_eq_true_eq] at hwf
    simp only [Arg.iv] at h0
    have hv : (mem p).val = major * 32 + v := by
      rw [h0]
      show (major * 32 + v) % 256 = major * 32 + v
      omega
    refine ⟨by unfold majorType; omega, ?_⟩
    rw [get_argument_short mem p end_ n hlt (by omega)]
    simp only [header, Arg.octets, List.length_singleton, Arg.value]
    congr 2
    omega
  | ext k v =>
    simp only [Arg.wf, Bool.and_eq_true, decide_eq_true_eq] at hwf
    simp only [Arg.iv] at h0
    simp only [Arg.octets] at hrest hend
    simp only [List.length_cons, beBytes_length] at hend
    rw [beBytes_length] at hrest
    have hv : (mem p).val = major * 32 + (24 + k) := by
      rw [h0]
      show (major * 32 + (24 + k)) % 256 = major * 32 + (24 + k)
      omega
    have hiv : (mem p).val % 32 = 24 + k := by omega
    have hk : (mem p).val % 32 - 24 = k := by omega
    refine ⟨by unfold majorType; omega, ?_⟩
    rw [get_argument_ext mem p end_ n hlt (by omega) (by omega) (by rw [hk]; omega)]
    rw [hk, hrest, beValue_beBytes _ _ hwf.2]
    simp only [header, Arg.octets, List.length_cons, beBytes_length, Arg.value]
    congr 2
    omega

/-! ## The string extractor as written -/

theorem stringref_of_decode (mem : Mem) (p end_ n0 p1 len : Nat) (val : cbor_value_t)
    (hdec : cbor_get_argument mem p end_ n0 = (CBOR_ERR_NONE, p1, len)) :
    cbor_extract_stringref mem p end_ val
      = if end_ - p1 ≤ len
          then (CBOR_ERR_NONE, (p1 + len) % 2 ^ 64,
            { val with ref_ptr := p1, ref_length := len })
          else (CBOR_ERR_OVERRUN, p1, { val with ref_ptr := p1, ref_length := len }) := by
  have hd := get_argument_none_indep mem p end_ n0 val.ref_length p1 len hdec
  unfold cbor_extract_stringref
  simp only [hd, if_true]

/-! ## One step of `cbor_skip` -/

theorem skip_uint (mem : Mem) (end_ fuel p n0 p' v : Nat) (ht : majorType mem p = 0)
    (hdec : cbor_get_argument mem p end_ n0 = (CBOR_ERR_NONE, p', v)) (hle : p' ≤ end_) :
    cbor_skip mem end_ (fuel + 1) p = some (CBOR_ERR_NONE, p') := by
  have htb : typeBits mem p = 0 := by rw [typeBits_eq, ht]
  have hd := get_argument_none_indep mem p end_ n0 cbor_value_t.init.u64 p' v hdec
  have hnot : ¬ p' > end_ := by omega
  simp [cbor_skip, htb, cbor_extractors, cbor_extract_uint, cbor_get_uint64, hd, hnot,
    CBOR_TYPE_UINT]

theorem skip_nint (mem : Mem) (end_ fuel p n0 p' v : Nat) (ht : majorType mem p = 1)
    (hdec : cbor_get_argument mem p end_ n0 = (CBOR_ERR_NONE, p', v)) (hle : p' ≤ end_)
    (hv : v < 2 ^ 63) :
    cbor_skip mem end_ (fuel + 1) p = some (CBOR_ERR_NONE, p') := by
  have htb : typeBits mem p = 32 := by rw [typeBits_eq, ht]
  have hd := get_int64_nint mem p end_ n0 p' v cbor_value_t.init.i64 ht hdec hv
  have hnot : ¬ p' > end_ := by omega
  simp [cbor_skip, htb, cbor_extractors, cbor_extract_int, hd, hnot,
    CBOR_TYPE_UINT, CBOR_TYPE_NINT]

theorem skip_nint_overflow (mem : Mem) (end_ fuel p n0 p' v : Nat) (ht : majorType mem p = 1)
    (hdec : cbor_get_argument mem p end_ n0 = (CBOR_ERR_NONE, p', v))
    (hv : 2 ^ 63 ≤ v) :
    cbor_skip mem end_ (fuel + 1) p
      = some (if p' > end_ then CBOR_ERR_OVERRUN else CBOR_ERR_INTEGER_DECODE_OVERFLOW, p') := by
  have htb : typeBits mem p = 32 := by rw [typeBits_eq, ht]
  have hd := get_int64_overflow mem p end_ n0 p' v cbor_value_t.init.i64 (Or.inr ht) hdec hv
  by_cases hnot : p' > end_ <;>
    simp [cbor_skip, htb, cbor_extractors, cbor_extract_int, hd, hnot]

theorem skip_simple (mem : Mem) (end_ fuel p : Nat) (ht : majorType mem p = 7)
    (hlt : p < end_) :
    cbor_skip mem end_ (fuel + 1) p = some (CBOR_ERR_NONE, p + 1) := by
  have htb : typeBits mem p = 224 := by rw [typeBits_eq, ht]
  have hnot : ¬ p + 1 > end_ := by omega
  simp [cbor_skip, htb, cbor_extractors, cbor_extract_primitive, hnot,
    CBOR_TYPE_UINT, CBOR_TYPE_NINT, CBOR_TYPE_TSTR, CBOR_TYPE_BSTR, CBOR_TYPE_SIMPLE]

theorem skip_array (mem : Mem) (end_ fuel p n0 p' c : Nat) (ht : majorType mem p = 4)
    (hdec : cbor_get_argument mem p end_ n0 = (CBOR_ERR_NONE, p', c)) (hle : p' ≤ end_) :
    cbor_skip mem end_ (fuel + 1) p
      = cbor_skip_loop (cbor_skip mem end_ fuel) c CBOR_ERR_NONE p' := by
  have htb : typeBits mem p = 128 := by rw [typeBits_eq, ht]
  have hd := get_argument_none_indep mem p end_ n0 cbor_value_t.init.ref_length p' c hdec
  have hnot : ¬ p' > end_ := by omega
  simp [cbor_skip, htb, cbor_extractors, cbor_extract_ref, hd, hnot,
    CBOR_TYPE_UINT, CBOR_TYPE_NINT, CBOR_TYPE_TSTR, CBOR_TYPE_BSTR, CBOR_TYPE_SIMPLE,
    CBOR_TYPE_MAP, CBOR_TYPE_LIST]

theorem skip_map (mem : Mem) (end_ fuel p n0 p' c : Nat) (ht : majorType mem p = 5)
    (hdec : cbor_get_argument mem p end_ n0 = (CBOR_ERR_NONE, p', c)) (hle : p' ≤ end_) :
    cbor_skip mem end_ (fuel + 1) p
      = cbor_skip_loop (cbor_skip mem end_ fuel) ((c * 2) % 2 ^ 64) CBOR_ERR_NONE p' := by
  have htb : typeBits mem p = 160 := by rw [typeBits_eq, ht]
  have hd := get_argument_none_indep mem p end_ n0 cbor_value_t.init.ref_length p' c hdec
  have hnot : ¬ p' > end_ := by omega
  simp [cbor_skip, htb, cbor_extractors, cbor_extract_ref, hd, hnot,
    CBOR_TYPE_UINT, CBOR_TYPE_NINT, CBOR_TYPE_TSTR, CBOR_TYPE_BSTR, CBOR_TYPE_SIMPLE,
    CBOR_TYPE_MAP, CBOR_TYPE_LIST]

theorem skip_tag (mem : Mem) (end_ fuel p : Nat) (ht : majorType mem p = 6)
    (hle : p ≤ end_) :
    cbor_skip mem end_ (fuel + 1) p = some (CBOR_ERR_UNIMPLEMENTED, p) := by
  have htb : typeBits mem p = 192 := by rw [typeBits_eq, ht]
  have hnot : ¬ p > end_ := by omega
  simp [cbor_skip, htb, cbor_extractors, cbor_extract_tag, hnot]

/-! ## More recursion depth never changes a result -/

theorem skip_loop_mono (s1 s2 : Nat → Option (cbor_err × Nat))
    (h : ∀ q r, s1 q = some r → s2 q = some r) :
    ∀ (count : Nat) (rc : cbor_err) (p : Nat) (r : cbor_err × Nat),
      cbor_skip_loop s1 count rc p = some r → cbor_skip_loop s2 count rc p = some r
  | 0, _, _, _, hr => by
    simpa [cbor_skip_loop] using hr
  | count + 1, rc, p, r, hr => by
    simp only [cbor_skip_loop] at hr ⊢
    by_cases hrc : rc = CBOR_ERR_NONE
    · rw [if_pos hrc] at hr ⊢
      cases hs : s1 p with
      | none => rw [hs] at hr; simp at hr
      | some x =>
        rw [hs] at hr
        rw [h p x hs]
        exact skip_loop_mono s1 s2 h count _ _ r hr
    · rw [if_neg hrc] at hr ⊢
      exact hr

theorem skip_fuel_succ (mem : Mem) (end_ : Nat) : ∀ (fuel p : Nat) (r : cbor_err × Nat),
    cbor_skip mem end_ fuel p = some r → cbor_skip mem end_ (fuel + 1) p = some r
  | 0, _, _, h => by simp [cbor_skip] at h
  | f + 1, p, r, h => by
    have ih := skip_fuel_succ mem end_ f
    rw [cbor_skip] at h ⊢
    split_ifs at h ⊢
    all_goals first
      | exact h
      | exact skip_loop_mono _ _ ih _ _ _ _ h

theorem skip_fuel_mono (mem : Mem) (end_ p : Nat) (r : cbor_err × Nat) :
    ∀ (fuel fuel' : Nat), fuel ≤ fuel' →
      cbor_skip mem end_ fuel p = some r → cbor_skip mem end_ fuel' p = some r := by
  intro fuel fuel' hle h
  induction hle with
  | refl => exact h
  | step _ ih => exact skip_fuel_succ mem end_ _ p r ih

theorem skip_result_unique (mem : Mem) (end_ p f1 f2 : Nat) (r1 r2 : cbor_err × Nat)
    (h1 : cbor_skip mem end_ f1 p = some r1) (h2 : cbor_skip mem end_ f2 p = some r2) :
    r1 = r2 := by
  have a := skip_fuel_mono mem end_ p r1 f1 (max f1 f2) (Nat.le_max_left _ _) h1
  have b := skip_fuel_mono mem end_ p r2 f2 (max f1 f2) (Nat.le_max_right _ _) h2
  rw [a] at b
  exact Option.some.inj b

/-! ## Skipping a well-formed item -/

theorem item_encode_pos (it : Item) : 1 ≤ it.encode.length := by
  cases it <;> simp [Item.encode, header]

theorem items_length_le : ∀ its : Items, its.length ≤ its.encode.length
  | .nil => by simp [Items.length]
  | .cons h t => by
    have h1 := item_encode_pos h
    have h2 := items_length_le t
    simp only [Items.length, Items.encode, List.length_append]
    omega

mutual
theorem skip_item_ok : ∀ (it : Item) (mem : Mem) (p end_ fuel : Nat),
    it.wf = true → it.stringFree = true → it.nintFits = true →
    bytesAt mem p it.encode.length = it.encode →
    p + it.encode.length ≤ end_ → end_ ≤ 2 ^ 64 → it.depth ≤ fuel →
    cbor_skip mem end_ fuel p = some (CBOR_ERR_NONE, p + it.encode.length)
  | .uint a, mem, p, end_, fuel, hwf, _, _, hmem, hend, _, hfuel => by
    simp only [Item.encode] at hmem hend ⊢
    simp only [Item.wf] at hwf
    simp only [Item.depth] at hfuel
    obtain ⟨f, rfl⟩ : ∃ f, fuel = f + 1 := ⟨fuel - 1, by omega⟩
    obtain ⟨ht, hdec⟩ := header_decode 0 a mem p end_ 0 (by decide) hwf hmem hend
    exact skip_uint mem end_ f p 0 _ _ ht hdec hend
  | .nint a, mem, p, end_, fuel, hwf, _, hni, hmem, hend, _, hfuel => by
    simp only [Item.encode] at hmem hend ⊢
    simp only [Item.wf] at hwf
    simp only [Item.nintFits, decide_eq_true_eq] at hni
    simp only [Item.depth] at hfuel
    obtain ⟨f, rfl⟩ : ∃ f, fuel = f + 1 := ⟨fuel - 1, by omega⟩
    obtain ⟨ht, hdec⟩ := header_decode 1 a mem p end_ 0 (by decide) hwf hmem hend
    exact skip_nint mem end_ f p 0 _ _ ht hdec hend hni
  | .bstr _ _, _, _, _, _, _, hsf, _, _, _, _, _ => by
    simp [Item.stringFree] at hsf
  | .tstr _ _, _, _, _, _, _, hsf, _, _, _, _, _ => by
    simp [Item.stringFree] at hsf
  | .simple v, mem, p, end_, fuel, hwf, _, _, hmem, hend, _, hfuel => by
    simp only [Item.encode, List.length_singleton] at hmem hend ⊢
    simp only [Item.wf, decide_eq_true_eq] at hwf
    simp only [Item.depth] at hfuel
    obtain ⟨f, rfl⟩ : ∃ f, fuel = f + 1 := ⟨fuel - 1, by omega⟩
    have h0 : mem p = byteOf (7 * 32 + v) := by
      simp only [bytesAt, List.cons.injEq, and_true] at hmem
      exact hmem
    have hv : (mem p).val = 7 * 32 + v := by
      rw [h0]
      show (7 * 32 + v) % 256 = 7 * 32 + v
      omega
    exact skip_simple mem end_ f p (by unfold majorType; omega) (by omega)
  | .array a items, mem, p, end_, fuel, hwf, hsf, hni, hmem, hend, haddr, hfuel => by
    simp only [Item.encode, List.length_append] at hend ⊢
    simp only [Item.encode] at hmem
    simp only [Item.wf, Bool.and_eq_true, decide_eq_true_eq] at hwf
    simp only [Item.stringFree] at hsf
    simp only [Item.nintFits] at hni
    simp only [Item.depth] at hfuel
    obtain ⟨f, rfl⟩ : ∃ f, fuel = f + 1 := ⟨fuel - 1, by omega⟩
    obtain ⟨hm1, hm2⟩ := bytesAt_append mem p _ _ hmem
    obtain ⟨ht, hdec⟩ := header_decode 4 a mem p end_ 0 (by decide) hwf.1.1 hm1 (by omega)
    rw [skip_array mem end_ f p 0 _ _ ht hdec (by omega), hwf.1.2]
    rw [skip_items_ok items mem (p + (header 4 a).length) end_ f hwf.2 hsf hni hm2
      (by omega) haddr (by omega)]
    rw [Nat.add_assoc]
  | .map a entries, mem, p, end_, fuel, hwf, hsf, hni, hmem, hend, haddr, hfuel => by
    simp only [Item.encode, List.length_append] at hend ⊢
    simp only [Item.encode] at hmem
    simp only [Item.wf, Bool.and_eq_true, decide_eq_true_eq] at hwf
    simp only [Item.stringFree] at hsf
    simp only [Item.nintFits] at hni
    simp only [Item.depth] at hfuel
    obtain ⟨f, rfl⟩ : ∃ f, fuel = f + 1 := ⟨fuel - 1, by omega⟩
    obtain ⟨hm1, hm2⟩ := bytesAt_append mem p _ _ hmem
    obtain ⟨ht, hdec⟩ := header_decode 5 a mem p end_ 0 (by decide) hwf.1.1 hm1 (by omega)
    have hlen := items_length_le entries
    have hpos := header_length_pos 5 a
    have hcount : (a.value * 2) % 2 ^ 64 = entries.length := by
      rw [Nat.mod_eq_of_lt (by omega)]
      omega
    rw [skip_map mem end_ f p 0 _ _ ht hdec (by omega), hcount]
    rw [skip_items_ok entries mem (p + (header 5 a).length) end_ f hwf.2 hsf hni hm2
      (by omega) haddr (by omega)]
    rw [Nat.add_assoc]
theorem skip_items_ok : ∀ (its : Items) (mem : Mem) (p end_ fuel : Nat),
    its.wf = true → its.stringFree = true → its.nintFits = true →
    bytesAt mem p its.encode.length = its.encode →
    p + its.encode.length ≤ end_ → end_ ≤ 2 ^ 64 → its.depth ≤ fuel →
    cbor_skip_loop (cbor_skip mem end_ fuel) its.length CBOR_ERR_NONE p
      = some (CBOR_ERR_NONE, p + its.encode.length)
  | .nil, _, _, _, _, _, _, _, _, _, _, _ => by
    simp [Items.length, Items.encode, cbor_skip_loop]
  | .cons h t, mem, p, end_, fuel, hwf, hsf, hni, hmem, hend, haddr, hfuel => by
    simp only [Items.encode, List.length_append] at hend ⊢
    simp only [Items.encode] at hmem
    simp only [Items.wf, Bool.and_eq_true] at hwf
    simp only [Items.stringFree, Bool.and_eq_true] at hsf
    simp only [Items.nintFits, Bool.and_eq_true] at hni
    simp only [Items.depth] at hfuel
    obtain ⟨hm1, hm2⟩ := bytesAt_append mem p _ _ hmem
    have hh := skip_item_ok h mem p end_ fuel hwf.1 hsf.1 hni.1 hm1 (by omega) haddr
      (by omega)
    have ht := skip_items_ok t mem (p + h.encode.length) end_ fuel hwf.2 hsf.2 hni.2 hm2
      (by omega) haddr (by omega)
    simp only [Items.length, cbor_skip_loop, if_true, hh]
    rw [ht, Nat.add_assoc]
end

/-! ## A call with the cursor at or past `end_` -/

theorem skip_loop_failed (skip : Nat → Option (cbor_err × Nat)) (count : Nat) (rc : cbor_err)
    (p : Nat) (hrc : rc ≠ CBOR_ERR_NONE) :
    cbor_skip_loop skip count rc p = some (rc, p) := by
  cases count with
  | zero => rfl
  | succ c => simp [cbor_skip_loop, hrc]

theorem skip_at_end (mem : Mem) (end_ fuel p : Nat) (h : end_ ≤ p) :
    cbor_skip mem end_ (fuel + 1) p
      = some (if majorType mem p = 6 ∧ p = end_ then CBOR_ERR_UNIMPLEMENTED
              else CBOR_ERR_OVERRUN,
              if majorType mem p = 7 then p + 1 else p) := by
  have hm := majorType_lt mem p
  have htb := typeBits_eq mem p
  have hov : ∀ n, cbor_get_argument mem p end_ n = (CBOR_ERR_OVERRUN, p, n) :=
    fun n => get_argument_overrun_at_end mem p end_ n h
  have hp1 : p + 1 > end_ := by omega
  generalize majorType mem p = m at hm htb
  interval_cases m
  · simp [cbor_skip, htb, cbor_extractors, cbor_extract_uint, cbor_get_uint64, hov,
      CBOR_TYPE_UINT]
  · simp [cbor_skip, htb, cbor_extractors, cbor_extract_int, cbor_get_int64, hov,
      CBOR_TYPE_UINT, CBOR_TYPE_NINT]
  · simp [cbor_skip, htb, cbor_extractors, cbor_extract_stringref, hov]
  · simp [cbor_skip, htb, cbor_extractors, cbor_extract_stringref, hov]
  · simp [cbor_skip, htb, cbor_extractors, cbor_extract_ref, hov]
  · simp [cbor_skip, htb, cbor_extractors, cbor_extract_ref, hov]
  · by_cases he : p = end_
    · subst he
      simp [cbor_skip, htb, cbor_extractors, cbor_extract_tag]
    · have hgt : p > end_ := by omega
      simp [cbor_skip, htb, cbor_extractors, cbor_extract_tag, hgt, he]
  · simp [cbor_skip, htb, cbor_extractors, cbor_extract_primitive, hp1]

/-! ## An array that announces more items than the buffer holds -/

theorem skip_loop_leading : ∀ (its : Items) (mem : Mem) (p end_ fuel m : Nat),
    its.wf = true → its.stringFree = true → its.nintFits = true →
    bytesAt mem p its.encode.length = its.encode →
    p + its.encode.length ≤ end_ → end_ ≤ 2 ^ 64 → its.depth ≤ fuel →
    cbor_skip_loop (cbor_skip mem end_ fuel) (its.length + m) CBOR_ERR_NONE p
      = cbor_skip_loop (cbor_skip mem end_ fuel) m CBOR_ERR_NONE (p + its.encode.length)
  | .nil, _, _, _, _, _, _, _, _, _, _, _, _ => by
    simp [Items.length, Items.encode]
  | .cons h t, mem, p, end_, fuel, m, hwf, hsf, hni, hmem, hend, haddr, hfuel => by
    simp only [Items.encode, List.length_append] at hend ⊢
    simp only [Items.encode] at hmem
    simp only [Items.wf, Bool.and_eq_true] at hwf
    simp only [Items.stringFree, Bool.and_eq_true] at hsf
    simp only [Items.nintFits, Bool.and_eq_true] at hni
    simp only [Items.depth] at hfuel
    obtain ⟨hm1, hm2⟩ := bytesAt_append mem p _ _ hmem
    have hh := skip_item_ok h mem p end_ fuel hwf.1 hsf.1 hni.1 hm1 (by omega) haddr
      (by omega)
    have ht := skip_loop_leading t mem (p + h.encode.length) end_ fuel m hwf.2 hsf.2 hni.2
      hm2 (by omega) haddr (by omega)
    have e : (Items.cons h t).length + m = (t.length + m) + 1 := by
      simp only [Items.length]; omega
    rw [e]
    simp only [cbor_skip_loop, if_true, hh]
    rw [ht, Nat.add_assoc]

theorem skip_short_array (a : Arg) (its : Items) (mem : Mem) (p fuel : Nat)
    (ha : a.wf = true) (hwf : its.wf = true) (hsf : its.stringFree = true)
    (hni : its.nintFits = true) (hshort : its.length < a.value)
    (hmem : bytesAt mem p (header 4 a ++ its.encode).length = header 4 a ++ its.encode)
    (haddr : p + (header 4 a ++ its.encode).length ≤ 2 ^ 64)
    (hfuel : its.depth + 1 ≤ fuel) (hfuel2 : 2 ≤ fuel) :
    cbor_skip mem (p + (header 4 a ++ its.encode).length) fuel p
      = some (if majorType mem (p + (header 4 a ++ its.encode).length) = 6
                then CBOR_ERR_UNIMPLEMENTED else CBOR_ERR_OVERRUN,
              if majorType mem (p + (header 4 a ++ its.encode).length) = 7
                then p + (header 4 a ++ its.encode).length + 1
                else p + (header 4 a ++ its.encode).length) := by
  obtain ⟨f, rfl⟩ : ∃ f, fuel = f + 2 := ⟨fuel - 2, by omega⟩
  obtain ⟨hm1, hm2⟩ := bytesAt_append mem p _ _ hmem
  rw [List.length_append] at haddr ⊢
  generalize hE : p + ((header 4 a).length + its.encode.length) = E at haddr ⊢
  obtain ⟨ht, hdec⟩ := header_decode 4 a mem p E 0 (by decide) ha hm1 (by omega)
  obtain ⟨m, hm⟩ : ∃ m, a.value = its.length + (m + 1) :=
    ⟨a.value - its.length - 1, by omega⟩
  rw [skip_array mem E (f + 1) p 0 _ _ ht hdec (by omega), hm]
  rw [skip_loop_leading its mem _ E (f + 1) (m + 1) hwf hsf hni hm2 (by omega) haddr
    (by omega)]
  have hE2 : p + (header 4 a).length + its.encode.length = E := by omega
  rw [hE2]
  simp only [cbor_skip_loop, if_true]
  rw [skip_at_end mem E f E (Nat.le_refl E)]
  simp only [and_true]
  apply skip_loop_failed
  split_ifs <;> simp

/-! ## Claims about `cbor_skip` and the string extractor -/

/-- C1 (amended): for every well-formed item built from unsigned integers,
negative integers whose argument is below `2^63`, one-octet simple values,
arrays and maps (no string inside), and for every sequence of trailing octets,
`cbor_skip` with the cursor at the start of the encoding followed by the
trailing octets returns CBOR_ERR_NONE and leaves the cursor at the first octet
after the encoding, once the recursion depth allowed is at least the nesting
depth of the item.  The buffer lies inside the 64-bit address space. -/
theorem C1_skip_item_then_trailing (it : Item) (trailing : List Byte) (mem : Mem)
    (p fuel : Nat)
    (hwf : it.wf = true) (hsf : it.stringFree = true) (hni : it.nintFits = true)
    (hmem : bytesAt mem p (it.encode ++ trailing).length = it.encode ++ trailing)
    (haddr : p + (it.encode ++ trailing).length ≤ 2 ^ 64) (hfuel : it.depth ≤ fuel) :
    cbor_skip mem (p + (it.encode ++ trailing).length) fuel p
      = some (CBOR_ERR_NONE, p + it.encode.length) := by
  have hm := (bytesAt_append mem p _ _ hmem).1
  apply skip_item_ok it mem p _ fuel hwf hsf hni hm _ haddr hfuel
  rw [List.length_append]
  omega

/-- C1 (amended) at the map `{1: [200, -3]}` encoded as
`[0xA1, 0x01, 0x82, 0x18, 0xC8, 0x22]`, followed by the octets `[0xFF, 0x41]`:
the cursor ends at 6. -/
theorem C1_skip_item_then_trailing_witness :
    cbor_skip (memOf [0xA1, 0x01, 0x82, 0x18, 0xC8, 0x22, 0xFF, 0x41]) 8 3 0
      = some (CBOR_ERR_NONE, 6) :=
  C1_skip_item_then_trailing
    (.map (.direct 1) (.cons (.uint (.direct 1)) (.cons (.array (.direct 2)
      (.cons (.uint (.ext 0 200)) (.cons (.nint (.direct 2)) .nil))) .nil)))
    [0xFF, 0x41] (memOf [0xA1, 0x01, 0x82, 0x18, 0xC8, 0x22, 0xFF, 0x41]) 0 3
    (by decide) (by decide) (by decide) (by decide) (by decide) (by decide)

/-- C1 as stated fails: the well-formed negative integer with argument `2^63`,
`[0x3B, 0x80, 0, 0, 0, 0, 0, 0, 0]`, makes `cbor_skip` return
CBOR_ERR_INTEGER_DECODE_OVERFLOW, for no recursion depth CBOR_ERR_NONE; and the
well-formed byte string `[0x41, 0x00]` followed by the trailing octet `0x00`
makes it return CBOR_ERR_OVERRUN. -/
theorem C1_counterexample :
    (Item.nint (.ext 3 (2 ^ 63))).wf = true
    ∧ (Item.nint (.ext 3 (2 ^ 63))).encode = [0x3B, 0x80, 0, 0, 0, 0, 0, 0, 0]
    ∧ cbor_skip (memOf [0x3B, 0x80, 0, 0, 0, 0, 0, 0, 0]) 9 1 0
        = some (CBOR_ERR_INTEGER_DECODE_OVERFLOW, 9)
    ∧ (¬ ∃ fuel q, cbor_skip (memOf [0x3B, 0x80, 0, 0, 0, 0, 0, 0, 0]) 9 fuel 0
        = some (CBOR_ERR_NONE, q))
    ∧ (Item.bstr (.direct 1) [0x00]).wf = true
    ∧ (Item.bstr (.direct 1) [0x00]).encode ++ [0x00] = [0x41, 0x00, 0x00]
    ∧ cbor_skip (memOf [0x41, 0x00, 0x00]) 3 1 0 = some (CBOR_ERR_OVERRUN, 1) := by
  refine ⟨by decide, by decide, by decide, ?_, by decide, by decide, by decide⟩
  rintro ⟨fuel, q, h⟩
  have h1 : cbor_skip (memOf [0x3B, 0x80, 0, 0, 0, 0, 0, 0, 0]) 9 1 0
      = some (CBOR_ERR_INTEGER_DECODE_OVERFLOW, 9) := by decide
  have := skip_result_unique _ _ _ _ _ _ _ h h1
  simp at this

/-- C2 (amended): for every well-formed item without strings and tags whose
negative integers all have an argument below `2^63` (unsigned integers of any
width, one-octet simple values, arrays and maps nested to any depth), held in
memory at the cursor with `end_` at or after its last octet and inside the
64-bit address space, `cbor_skip` returns CBOR_ERR_NONE and advances the cursor
by exactly the length of the encoding, whatever follows the encoding, once the
recursion depth allowed is at least the nesting depth of the item. -/
theorem C2_skip_string_free_item (it : Item) (mem : Mem) (p end_ fuel : Nat)
    (hwf : it.wf = true) (hsf : it.stringFree = true) (hni : it.nintFits = true)
    (hmem : bytesAt mem p it.encode.length = it.encode)
    (hend : p + it.encode.length ≤ end_) (haddr : end_ ≤ 2 ^ 64)
    (hfuel : it.depth ≤ fuel) :
    cbor_skip mem end_ fuel p = some (CBOR_ERR_NONE, p + it.encode.length) :=
  skip_item_ok it mem p end_ fuel hwf hsf hni hmem hend haddr hfuel

/-- C2 (amended) at the buffer `[0x82, 0x01, 0x02]`, an array of two unsigned
integers: all 3 octets are consumed. -/
theorem C2_skip_string_free_item_witness :
    cbor_skip (memOf [0x82, 0x01, 0x02]) 3 2 0 = some (CBOR_ERR_NONE, 3) :=
  C2_skip_string_free_item
    (.array (.direct 2) (.cons (.uint (.direct 1)) (.cons (.uint (.direct 2)) .nil)))
    (memOf [0x82, 0x01, 0x02]) 0 3 2
    (by decide) (by decide) (by decide) (by decide) (by decide) (by decide) (by decide)

/-- C2 as stated fails: the array `[0x81, 0x3B, 0xFF × 8]` holding the
well-formed negative integer with argument `2^64 - 1` contains no string and no
tag, and `cbor_skip` returns CBOR_ERR_INTEGER_DECODE_OVERFLOW on it, for no
recursion depth CBOR_ERR_NONE. -/
theorem C2_counterexample :
    (Item.array (.direct 1) (.cons (.nint (.ext 3 (2 ^ 64 - 1))) .nil)).wf = true
    ∧ (Item.array (.direct 1) (.cons (.nint (.ext 3 (2 ^ 64 - 1))) .nil)).stringFree = true
    ∧ (Item.array (.direct 1) (.cons (.nint (.ext 3 (2 ^ 64 - 1))) .nil)).encode
        = [0x81, 0x3B, 0xFF, 0xFF, 0xFF, 0xFF, 0xFF, 0xFF, 0xFF, 0xFF]
    ∧ cbor_skip (memOf [0x81, 0x3B, 0xFF, 0xFF, 0xFF, 0xFF, 0xFF, 0xFF, 0xFF, 0xFF]) 10 2 0
        = some (CBOR_ERR_INTEGER_DECODE_OVERFLOW, 10)
    ∧ (¬ ∃ fuel q,
        cbor_skip (memOf [0x81, 0x3B, 0xFF, 0xFF, 0xFF, 0xFF, 0xFF, 0xFF, 0xFF, 0xFF]) 10 fuel 0
          = some (CBOR_ERR_NONE, q)) := by
  refine ⟨by decide, by decide, by decide, by decide, ?_⟩
  rintro ⟨fuel, q, h⟩
  have h1 : cbor_skip (memOf [0x81, 0x3B, 0xFF, 0xFF, 0xFF, 0xFF, 0xFF, 0xFF, 0xFF, 0xFF])
      10 2 0 = some (CBOR_ERR_INTEGER_DECODE_OVERFLOW, 10) := by decide
  have := skip_result_unique _ _ _ _ _ _ _ h h1
  simp at this

/-- C3, the code at the failing inputs: on `[0x41, 0x00, 0x00]` (length 1, two
octets left after the header) `cbor_extract_stringref` returns
CBOR_ERR_OVERRUN with the cursor still at the payload; on `[0x42, 0x00]`
(length 2, one octet left) it returns CBOR_ERR_NONE with the cursor at 3, past
`end_ = 2`. -/
theorem C3_stringref_check_inverted :
    cbor_get_argument (memOf [0x41, 0x00, 0x00]) 0 3 0 = (CBOR_ERR_NONE, 1, 1)
    ∧ cbor_extract_stringref (memOf [0x41, 0x00, 0x00]) 0 3 cbor_value_t.init
        = (CBOR_ERR_OVERRUN, 1, { cbor_value_t.init with ref_ptr := 1, ref_length := 1 })
    ∧ cbor_get_argument (memOf [0x42, 0x00]) 0 2 0 = (CBOR_ERR_NONE, 1, 2)
    ∧ cbor_extract_stringref (memOf [0x42, 0x00]) 0 2 cbor_value_t.init
        = (CBOR_ERR_NONE, 3, { cbor_value_t.init with ref_ptr := 1, ref_length := 2 }) := by
  refine ⟨by decide, by decide, by decide, by decide⟩

/-- C10, the code at the failing input: the buffer `[0x82, 0x01]` (`end_ = 2`)
with the octet `0xC0` at address 2, just past the buffer, makes `cbor_skip`
return CBOR_ERR_UNIMPLEMENTED, for no recursion depth CBOR_ERR_OVERRUN; the same
buffer with the octet `0x00` at address 2 gives CBOR_ERR_OVERRUN. -/
theorem C10_skip_short_array_reads_past_end :
    cbor_skip (memOf [0x82, 0x01, 0xC0]) 2 2 0 = some (CBOR_ERR_UNIMPLEMENTED, 2)
    ∧ (¬ ∃ fuel p', cbor_skip (memOf [0x82, 0x01, 0xC0]) 2 fuel 0
        = some (CBOR_ERR_OVERRUN, p'))
    ∧ cbor_skip (memOf [0x82, 0x01, 0x00]) 2 2 0 = some (CBOR_ERR_OVERRUN, 2) := by
  refine ⟨by decide, ?_, by decide⟩
  rintro ⟨fuel, p', h⟩
  have h1 : cbor_skip (memOf [0x82, 0x01, 0xC0]) 2 2 0
      = some (CBOR_ERR_UNIMPLEMENTED, 2) := by decide
  have := skip_result_unique _ _ _ _ _ _ _ h h1
  simp at this

/-! ## Tags, references and simple values -/

theorem get_argument_error_output (mem : Mem) (p end_ n : Nat)
    (h : (cbor_get_argument mem p end_ n).1 ≠ CBOR_ERR_NONE) :
    (cbor_get_argument mem p end_ n).2.2 = n := by
  by_cases h0 : p ≥ end_
  · rw [get_argument_overrun_at_end mem p end_ n h0]
  · have hlt : p < end_ := by omega
    by_cases h1 : 28 ≤ (mem p).val % 32
    · rw [get_argument_encoding mem p end_ n hlt h1]
    · by_cases h2 : (mem p).val % 32 < 24
      · rw [get_argument_short mem p end_ n hlt h2] at h
        exact absurd rfl h
      · by_cases h3 : end_ < p + 1 + 2 ^ ((mem p).val % 32 - 24)
        · rw [get_argument_truncated mem p end_ n hlt (by omega) (by omega) h3]
        · rw [get_argument_ext mem p end_ n hlt (by omega) (by omega) (by omega)] at h
          exact absurd rfl h

/-- C15: `cbor_extract_tag` returns CBOR_ERR_UNIMPLEMENTED on every input and
leaves the cursor and the value record as they were; with the cursor before
`end_` at an octet of major type 6, `cbor_skip` returns
CBOR_ERR_UNIMPLEMENTED with the cursor unchanged, for every memory (so
whatever the low five bits and the following octets are) and every positive
recursion depth. -/
theorem C15_tag_unimplemented (mem : Mem) (p end_ fuel : Nat) (val : cbor_value_t) :
    cbor_extract_tag mem p end_ val = (CBOR_ERR_UNIMPLEMENTED, p, val)
    ∧ (p < end_ → majorType mem p = 6 →
        cbor_skip mem end_ (fuel + 1) p = some (CBOR_ERR_UNIMPLEMENTED, p)) :=
  ⟨rfl, fun hp ht => skip_tag mem end_ fuel p ht (Nat.le_of_lt hp)⟩

/-- C15 at `[0xC1, 0x00]` (tag 1 in front of the integer 0) and at
`[0xDF, 0xFF]` (major type 6 with low bits 31). -/
theorem C15_tag_unimplemented_witness :
    cbor_skip (memOf [0xC1, 0x00]) 2 1 0 = some (CBOR_ERR_UNIMPLEMENTED, 0)
    ∧ cbor_skip (memOf [0xDF, 0xFF]) 2 1 0 = some (CBOR_ERR_UNIMPLEMENTED, 0) :=
  ⟨(C15_tag_unimplemented (memOf [0xC1, 0x00]) 0 2 0 cbor_value_t.init).2
      (by decide) (by decide),
    (C15_tag_unimplemented (memOf [0xDF, 0xFF]) 0 2 0 cbor_value_t.init).2
      (by decide) (by decide)⟩

/-- C16: with the cursor before `end_`, `cbor_extract_ref` has the return code
and the final cursor of `cbor_get_argument` on the same input; when that
succeeds with cursor `p1` and argument `len`, the record gets
`ref.length = len` and `ref.ptr = p1` and the cursor is `p1`, the first octet
after the header, whatever `len` is compared with the `end_ - p1` octets that
remain; when it fails the record is unchanged. -/
theorem C16_extract_ref (mem : Mem) (p end_ : Nat) (val : cbor_value_t) (_hp : p < end_) :
    (cbor_extract_ref mem p end_ val).1 = (cbor_get_argument mem p end_ val.ref_length).1
    ∧ (cbor_extract_ref mem p end_ val).2.1
        = (cbor_get_argument mem p end_ val.ref_length).2.1
    ∧ (∀ p1 len : Nat,
        cbor_get_argument mem p end_ val.ref_length = (CBOR_ERR_NONE, p1, len) →
        cbor_extract_ref mem p end_ val
          = (CBOR_ERR_NONE, p1, { val with ref_ptr := p1, ref_length := len }))
    ∧ ((cbor_get_argument mem p end_ val.ref_length).1 ≠ CBOR_ERR_NONE →
        (cbor_extract_ref mem p end_ val).2.2 = val) := by
  refine ⟨?_, ?_, ?_, ?_⟩
  · unfold cbor_extract_ref
    simp only
    split_ifs <;> rfl
  · unfold cbor_extract_ref
    simp only
    split_ifs <;> rfl
  · intro p1 len h
    unfold cbor_extract_ref
    simp only [h, if_true]
  · intro h
    have ho := get_argument_error_output mem p end_ val.ref_length h
    unfold cbor_extract_ref
    simp only [if_neg h, ho]

/-- C16 at `[0x98, 0xFF]` with `end_ = 2`: an array header announcing 255
items with nothing after it is accepted, the cursor stops after the header. -/
theorem C16_extract_ref_witness :
    cbor_extract_ref (memOf [0x98, 0xFF]) 0 2 cbor_value_t.init
      = (CBOR_ERR_NONE, 2, { cbor_value_t.init with ref_ptr := 2, ref_length := 255 }) :=
  (C16_extract_ref (memOf [0x98, 0xFF]) 0 2 cbor_value_t.init (by decide)).2.2.1 2 255
    (by decide)

/-- C17: with the cursor before `end_`, `cbor_extract_primitive` returns
CBOR_ERR_NONE, stores the low five bits of the octet at the cursor (a value
below 32) into the primitive field and moves the cursor by one, whatever the
low five bits are; and `cbor_skip` on an octet of major type 7 returns
CBOR_ERR_NONE with the cursor moved by exactly one, for every positive
recursion depth. -/
theorem C17_primitive (mem : Mem) (p end_ fuel : Nat) (val : cbor_value_t) (hp : p < end_) :
    cbor_extract_primitive mem p end_ val
      = (CBOR_ERR_NONE, p + 1, { val with primitive := (mem p).val % 32 })
    ∧ (mem p).val % 32 < 32
    ∧ (majorType mem p = 7 →
        cbor_skip mem end_ (fuel + 1) p = some (CBOR_ERR_NONE, p + 1)) := by
  refine ⟨?_, Nat.mod_lt _ (by decide), fun ht => skip_simple mem end_ fuel p ht hp⟩
  unfold cbor_extract_primitive
  rw [low5_eq]

/-- C17 at `[0xF9, 0x3C, 0x00]` (low bits 25) and at `[0xFF]` (low bits 31):
one octet is consumed. -/
theorem C17_primitive_witness :
    cbor_extract_primitive (memOf [0xF9, 0x3C, 0x00]) 0 3 cbor_value_t.init
      = (CBOR_ERR_NONE, 1, { cbor_value_t.init with primitive := 25 })
    ∧ cbor_skip (memOf [0xF9, 0x3C, 0x00]) 3 1 0 = some (CBOR_ERR_NONE, 1)
    ∧ cbor_skip (memOf [0xFF]) 1 1 0 = some (CBOR_ERR_NONE, 1) :=
  ⟨(C17_primitive (memOf [0xF9, 0x3C, 0x00]) 0 3 0 cbor_value_t.init (by decide)).1,
    (C17_primitive (memOf [0xF9, 0x3C, 0x00]) 0 3 0 cbor_value_t.init (by decide)).2.2
      (by decide),
    (C17_primitive (memOf [0xFF]) 0 1 0 cbor_value_t.init (by decide)).2.2 (by decide)⟩


/-! ## Skipping a string -/

theorem get_argument_none_bounds (mem : Mem) (p end_ n p1 m : Nat)
    (h : cbor_get_argument mem p end_ n = (CBOR_ERR_NONE, p1, m)) :
    p < end_ ∧ p < p1 ∧ p1 ≤ end_ := by
  by_cases h0 : p ≥ end_
  · rw [get_argument_overrun_at_end mem p end_ n h0] at h
    simp at h
  · have hlt : p < end_ := by omega
    have hle := get_argument_cursor_le mem p end_ n (Nat.le_of_lt hlt)
    rw [h] at hle
    simp only at hle
    refine ⟨hlt, ?_, hle⟩
    by_cases h1 : 28 ≤ (mem p).val % 32
    · rw [get_argument_encoding mem p end_ n hlt h1] at h
      simp at h
    · by_cases h2 : (mem p).val % 32 < 24
      · rw [get_argument_short mem p end_ n hlt h2] at h
        simp only [Prod.mk.injEq, true_and] at h
        omega
      · by_cases h3 : end_ < p + 1 + 2 ^ ((mem p).val % 32 - 24)
        · rw [get_argument_truncated mem p end_ n hlt (by omega) (by omega) h3] at h
          simp at h
        · rw [get_argument_ext mem p end_ n hlt (by omega) (by omega) (by omega)] at h
          simp only [Prod.mk.injEq, true_and] at h
          have hpos : 0 < 2 ^ ((mem p).val % 32 - 24) := Nat.two_pow_pos _
          omega

theorem skip_string (mem : Mem) (end_ fuel p n0 p1 len : Nat)
    (ht : majorType mem p = 2 ∨ majorType mem p = 3)
    (hdec : cbor_get_argument mem p end_ n0 = (CBOR_ERR_NONE, p1, len)) :
    cbor_skip mem end_ (fuel + 1) p
      = if end_ - p1 ≤ len
          then some (if (p1 + len) % 2 ^ 64 > end_ then CBOR_ERR_OVERRUN else CBOR_ERR_NONE,
            (p1 + len) % 2 ^ 64)
          else some (CBOR_ERR_OVERRUN, p1) := by
  have hs := stringref_of_decode mem p end_ n0 p1 len cbor_value_t.init hdec
  have hb := get_argument_none_bounds mem p end_ n0 p1 len hdec
  have hnot : ¬ p1 > end_ := by omega
  generalize (p1 + len) % 2 ^ 64 = q at hs ⊢
  rcases ht with ht | ht
  · have htb : typeBits mem p = 64 := by rw [typeBits_eq, ht]
    by_cases hc : end_ - p1 ≤ len
    · by_cases hg : q > end_
      · simp [cbor_skip, htb, cbor_extractors, hs, hc, hg]
      · simp [cbor_skip, htb, cbor_extractors, hs, hc, hg,
          CBOR_TYPE_UINT, CBOR_TYPE_NINT, CBOR_TYPE_TSTR, CBOR_TYPE_BSTR]
    · simp [cbor_skip, htb, cbor_extractors, hs, hc, hnot]
  · have htb : typeBits mem p = 96 := by rw [typeBits_eq, ht]
    by_cases hc : end_ - p1 ≤ len
    · by_cases hg : q > end_
      · simp [cbor_skip, htb, cbor_extractors, hs, hc, hg]
      · simp [cbor_skip, htb, cbor_extractors, hs, hc, hg,
          CBOR_TYPE_UINT, CBOR_TYPE_NINT, CBOR_TYPE_TSTR, CBOR_TYPE_BSTR]
    · simp [cbor_skip, htb, cbor_extractors, hs, hc, hnot]

theorem skip_string_no_wrap (mem : Mem) (p end_ fuel n0 p1 len : Nat)
    (ht : majorType mem p = 2 ∨ majorType mem p = 3)
    (hdec : cbor_get_argument mem p end_ n0 = (CBOR_ERR_NONE, p1, len))
    (hnw : p1 + len < 2 ^ 64) :
    (len = end_ - p1 → cbor_skip mem end_ (fuel + 1) p = some (CBOR_ERR_NONE, end_))
    ∧ (len < end_ - p1 → cbor_skip mem end_ (fuel + 1) p = some (CBOR_ERR_OVERRUN, p1))
    ∧ (len > end_ - p1 →
        cbor_skip mem end_ (fuel + 1) p = some (CBOR_ERR_OVERRUN, p1 + len)) := by
  have hs := skip_string mem end_ fuel p n0 p1 len ht hdec
  have hb := get_argument_none_bounds mem p end_ n0 p1 len hdec
  rw [Nat.mod_eq_of_lt hnw] at hs
  refine ⟨?_, ?_, ?_⟩
  · intro h
    rw [hs, if_pos (by omega), if_neg (by omega)]
    congr 2
    omega
  · intro h
    rw [hs, if_neg (by omega)]
  · intro h
    rw [hs, if_pos (by omega), if_pos (by omega)]

/-- C20, the code at the failing input: the byte-string header
`[0x5B, 0xFF × 8]` declares the length `2^64 - 1` with no octet left after it
(`end_ = 9`), so the length exceeds what remains; the cursor `9 + (2^64 - 1)`
wraps to 8, which is not past `end_`, and `cbor_skip` returns CBOR_ERR_NONE
with the cursor at 8, at no recursion depth CBOR_ERR_OVERRUN.  The same
happens with the buffer at address 16. -/
theorem C20_skip_string_length_wraps :
    cbor_get_argument (memOf [0x5B, 0xFF, 0xFF, 0xFF, 0xFF, 0xFF, 0xFF, 0xFF, 0xFF]) 0 9 0
      = (CBOR_ERR_NONE, 9, 2 ^ 64 - 1)
    ∧ 9 - 9 < 2 ^ 64 - 1
    ∧ cbor_skip (memOf [0x5B, 0xFF, 0xFF, 0xFF, 0xFF, 0xFF, 0xFF, 0xFF, 0xFF]) 9 1 0
        = some (CBOR_ERR_NONE, 8)
    ∧ (¬ ∃ fuel q,
        cbor_skip (memOf [0x5B, 0xFF, 0xFF, 0xFF, 0xFF, 0xFF, 0xFF, 0xFF, 0xFF]) 9 fuel 0
          = some (CBOR_ERR_OVERRUN, q))
    ∧ cbor_skip (memOf (List.replicate 16 0
          ++ [0x5B, 0xFF, 0xFF, 0xFF, 0xFF, 0xFF, 0xFF, 0xFF, 0xFF])) 25 1 16
        = some (CBOR_ERR_NONE, 24) := by
  refine ⟨by decide, by decide, by decide, ?_, by decide⟩
  rintro ⟨fuel, q, h⟩
  have h1 : cbor_skip (memOf [0x5B, 0xFF, 0xFF, 0xFF, 0xFF, 0xFF, 0xFF, 0xFF, 0xFF]) 9 1 0
      = some (CBOR_ERR_NONE, 8) := by decide
  have := skip_result_unique _ _ _ _ _ _ _ h h1
  simp at this

/-! ## An array of a one-pair map and a byte string -/

/-- C13: when the buffer is exactly the encoding of an array of two items, the
first a map with one key/value pair of unsigned integers and the second a byte
string with its whole payload (headers of any width), `cbor_skip` from the
start of the buffer returns CBOR_ERR_NONE and leaves the cursor equal to
`end_`, for every recursion depth of at least 3.  The buffer lies in the
64-bit address space: `end_` is an address below `2^64`. -/
theorem C13_skip_nested (a am ak av ab : Arg) (payload : List Byte) (mem : Mem)
    (p fuel : Nat)
    (hwf : (Item.array a (.cons (.map am (.cons (.uint ak) (.cons (.uint av) .nil)))
      (.cons (.bstr ab payload) .nil))).wf = true)
    (hmem : bytesAt mem p (Item.array a (.cons (.map am (.cons (.uint ak)
        (.cons (.uint av) .nil))) (.cons (.bstr ab payload) .nil))).encode.length
      = (Item.array a (.cons (.map am (.cons (.uint ak) (.cons (.uint av) .nil)))
        (.cons (.bstr ab payload) .nil))).encode)
    (haddr : p + (Item.array a (.cons (.map am (.cons (.uint ak)
        (.cons (.uint av) .nil))) (.cons (.bstr ab payload) .nil))).encode.length < 2 ^ 64)
    (hfuel : 3 ≤ fuel) :
    cbor_skip mem
        (p + (Item.array a (.cons (.map am (.cons (.uint ak) (.cons (.uint av) .nil)))
          (.cons (.bstr ab payload) .nil))).encode.length) fuel p
      = some (CBOR_ERR_NONE,
          p + (Item.array a (.cons (.map am (.cons (.uint ak) (.cons (.uint av) .nil)))
            (.cons (.bstr ab payload) .nil))).encode.length) := by
  obtain ⟨f, rfl⟩ : ∃ f, fuel = f + 3 := ⟨fuel - 3, by omega⟩
  simp only [Item.wf, Items.wf, Items.length, Bool.and_eq_true, decide_eq_true_eq,
    Bool.and_true] at hwf
  obtain ⟨⟨ha, ha2⟩, ⟨⟨ham, ham1⟩, hk, hv⟩, hb, hbl⟩ := hwf
  simp only [Item.encode, Items.encode, List.append_nil] at hmem haddr ⊢
  obtain ⟨m4, mrest⟩ := bytesAt_append mem p _ _ hmem
  obtain ⟨mmap, mstr⟩ := bytesAt_append mem _ _ _ mrest
  obtain ⟨m5, mkv⟩ := bytesAt_append mem _ _ _ mmap
  obtain ⟨mk, mv⟩ := bytesAt_append mem _ _ _ mkv
  obtain ⟨mb, _⟩ := bytesAt_append mem _ _ _ mstr
  simp only [List.length_append] at mstr mv mb haddr ⊢
  generalize hE : p + ((header 4 a).length + ((header 5 am).length
    + ((header 0 ak).length + (header 0 av).length)
    + ((header 2 ab).length + payload.length))) = E at haddr ⊢
  obtain ⟨t4, d4⟩ := header_decode 4 a mem p E 0 (by decide) ha m4 (by omega)
  obtain ⟨t5, d5⟩ := header_decode 5 am mem _ E 0 (by decide) ham m5 (by omega)
  obtain ⟨tk, dk⟩ := header_decode 0 ak mem _ E 0 (by decide) hk mk (by omega)
  obtain ⟨tv, dv⟩ := header_decode 0 av mem _ E 0 (by decide) hv mv (by omega)
  obtain ⟨tb, db⟩ := header_decode 2 ab mem _ E 0 (by decide) hb mb (by omega)
  have hkey := skip_uint mem E f _ 0 _ _ tk dk (by omega)
  have hval := skip_uint mem E f _ 0 _ _ tv dv (by omega)
  have hcount : am.value * 2 % 2 ^ 64 = 2 := by
    have : am.value = 1 := by omega
    rw [this]
    norm_num
  have hmap : cbor_skip mem E (f + 2) (p + (header 4 a).length)
      = some (CBOR_ERR_NONE, p + (header 4 a).length + (header 5 am).length
          + (header 0 ak).length + (header 0 av).length) := by
    rw [skip_map mem E (f + 1) _ 0 _ _ t5 d5 (by omega), hcount]
    simp only [cbor_skip_loop, if_true, hkey, hval]
  have hstr := (skip_string_no_wrap mem _ E (f + 1) 0 _ _ (Or.inl tb) db (by omega)).1
    (by omega)
  rw [skip_array mem E (f + 2) p 0 _ _ t4 d4 (by omega), ha2]
  have e1 : p + (header 4 a).length + ((header 5 am).length
      + ((header 0 ak).length + (header 0 av).length))
      = p + (header 4 a).length + (header 5 am).length
          + (header 0 ak).length + (header 0 av).length := by omega
  rw [e1] at hstr
  simp only [cbor_skip_loop, if_true, hmap, hstr]

/-- C13 at `[0x82, 0xA1, 0x01, 0x18, 0x2A, 0x43, 0x61, 0x62, 0x63]`, the array
`[{1: 42}, h'616263']`: the cursor ends at 9, the end of the buffer. -/
theorem C13_skip_nested_witness :
    cbor_skip (memOf [0x82, 0xA1, 0x01, 0x18, 0x2A, 0x43, 0x61, 0x62, 0x63]) 9 3 0
      = some (CBOR_ERR_NONE, 9) :=
  C13_skip_nested (.direct 2) (.direct 1) (.direct 1) (.ext 0 42) (.direct 3)
    [0x61, 0x62, 0x63] (memOf [0x82, 0xA1, 0x01, 0x18, 0x2A, 0x43, 0x61, 0x62, 0x63]) 0 3
    (by decide) (by decide) (by decide) (by decide)


/-! ## What every extractor guarantees -/

theorem get_argument_none_gt (mem : Mem) (p end_ n : Nat)
    (h : (cbor_get_argument mem p end_ n).1 = CBOR_ERR_NONE) :
    p < end_ ∧ p < (cbor_get_argument mem p end_ n).2.1
      ∧ (cbor_get_argument mem p end_ n).2.1 ≤ end_ :=
  get_argument_none_bounds mem p end_ n _ (cbor_get_argument mem p end_ n).2.2
    (Prod.ext h rfl)

theorem extractors_error_cursor_le (i : Nat) (mem : Mem) (p end_ : Nat) (val : cbor_value_t)
    (hp : p < end_) (he : (cbor_extractors i mem p end_ val).1 ≠ CBOR_ERR_NONE) :
    (cbor_extractors i mem p end_ val).2.1 ≤ end_ := by
  have hle : ∀ n, (cbor_get_argument mem p end_ n).2.1 ≤ end_ :=
    fun n => get_argument_cursor_le mem p end_ n (Nat.le_of_lt hp)
  unfold cbor_extractors at he ⊢
  split at he
  · simp only [cbor_extract_uint, cbor_get_uint64] at he ⊢
    split_ifs at he ⊢
    all_goals first
      | exact Nat.le_of_lt hp
      | exact hle _
  · simp only [cbor_extract_int, cbor_get_int64] at he ⊢
    split_ifs at he ⊢
    all_goals first
      | exact Nat.le_of_lt hp
      | exact hle _
  · simp only [cbor_extract_stringref] at he ⊢
    split_ifs at he ⊢
    all_goals first
      | exact hle _
      | exact absurd (by assumption) he
  · simp only [cbor_extract_stringref] at he ⊢
    split_ifs at he ⊢
    all_goals first
      | exact hle _
      | exact absurd (by assumption) he
  · simp only [cbor_extract_ref] at he ⊢
    split_ifs at he ⊢
    all_goals exact hle _
  · simp only [cbor_extract_ref] at he ⊢
    split_ifs at he ⊢
    all_goals exact hle _
  · exact Nat.le_of_lt hp
  · exact absurd rfl he

/-! ## A successful skip stays inside the buffer -/

theorem skip_loop_none_le (skip : Nat → Option (cbor_err × Nat)) (end_ : Nat)
    (hskip : ∀ p q, skip p = some (CBOR_ERR_NONE, q) → q ≤ end_) :
    ∀ (count p q : Nat), p ≤ end_ →
      cbor_skip_loop skip count CBOR_ERR_NONE p = some (CBOR_ERR_NONE, q) → q ≤ end_
  | 0, p, q, hp, h => by
    simp only [cbor_skip_loop, Option.some.injEq, Prod.mk.injEq, true_and] at h
    omega
  | count + 1, p, q, _, h => by
    simp only [cbor_skip_loop, if_true] at h
    cases hs : skip p with
    | none => rw [hs] at h; simp at h
    | some r =>
      rw [hs] at h
      simp only at h
      obtain ⟨rc, p'⟩ := r
      by_cases hrc : rc = CBOR_ERR_NONE
      · subst hrc
        exact skip_loop_none_le skip end_ hskip count p' q (hskip p p' hs) h
      · rw [skip_loop_failed skip count rc p' hrc] at h
        simp only [Option.some.injEq, Prod.mk.injEq] at h
        exact absurd h.1 hrc

theorem skip_none_le (mem : Mem) (end_ : Nat) : ∀ (fuel p q : Nat),
    cbor_skip mem end_ fuel p = some (CBOR_ERR_NONE, q) → q ≤ end_
  | 0, _, _, h => by simp [cbor_skip] at h
  | f + 1, p, q, h => by
    have ih := skip_none_le mem end_ f
    rw [cbor_skip] at h
    by_cases hgt : (cbor_extractors (typeBits mem p >>> 5) mem p end_ cbor_value_t.init).2.1
        > end_
    · simp [hgt] at h
    · by_cases hrc : (cbor_extractors (typeBits mem p >>> 5) mem p end_ cbor_value_t.init).1
          = CBOR_ERR_NONE
      · simp only [hgt, if_false, hrc, ne_eq, not_true_eq_false] at h
        split_ifs at h
        · simp only [Option.some.injEq, Prod.mk.injEq, true_and] at h
          omega
        · exact skip_loop_none_le _ end_ ih _ _ q (by omega) h
        · exact skip_loop_none_le _ end_ ih _ _ q (by omega) h
        · simp at h
      · simp [hgt, hrc] at h

/-- C18, the code at the failing input: on the buffer
`[0x5B, 0xFF × 7, 0xF7]` (`p = 0 < end_ = 9`), a byte-string header declaring
the length `2^64 - 9`, the cursor after the header is 9 and adding the length
wraps it back to 0; `cbor_skip` returns CBOR_ERR_NONE with the final cursor
equal to `p`, so no progress is made.  With the buffer at address 16 the
final cursor is 16 again, and with the last octet `0xF6` it is 15, below the
starting cursor. -/
theorem C18_skip_success_without_progress :
    cbor_skip (memOf [0x5B, 0xFF, 0xFF, 0xFF, 0xFF, 0xFF, 0xFF, 0xFF, 0xF7]) 9 1 0
      = some (CBOR_ERR_NONE, 0)
    ∧ (¬ ∃ fuel q,
        cbor_skip (memOf [0x5B, 0xFF, 0xFF, 0xFF, 0xFF, 0xFF, 0xFF, 0xFF, 0xF7]) 9 fuel 0
          = some (CBOR_ERR_NONE, q) ∧ 0 < q)
    ∧ cbor_skip (memOf (List.replicate 16 0
          ++ [0x5B, 0xFF, 0xFF, 0xFF, 0xFF, 0xFF, 0xFF, 0xFF, 0xF7])) 25 1 16
        = some (CBOR_ERR_NONE, 16)
    ∧ cbor_skip (memOf (List.replicate 16 0
          ++ [0x5B, 0xFF, 0xFF, 0xFF, 0xFF, 0xFF, 0xFF, 0xFF, 0xF6])) 25 1 16
        = some (CBOR_ERR_NONE, 15) := by
  refine ⟨by decide, ?_, by decide, by decide⟩
  rintro ⟨fuel, q, h, hq⟩
  have h1 : cbor_skip (memOf [0x5B, 0xFF, 0xFF, 0xFF, 0xFF, 0xFF, 0xFF, 0xFF, 0xF7]) 9 1 0
      = some (CBOR_ERR_NONE, 0) := by decide
  have := skip_result_unique _ _ _ _ _ _ _ h h1
  simp only [Prod.mk.injEq, true_and] at this
  omega

/-! ## Counting the invocations of `cbor_skip` -/

theorem skip_loop_calls_failed (skip : Nat → Option (cbor_err × Nat × List Nat))
    (count : Nat) (rc : cbor_err) (p : Nat) (calls : List Nat) (hrc : rc ≠ CBOR_ERR_NONE) :
    cbor_skip_loop_calls skip count rc p calls = some (rc, p, calls) := by
  cases count with
  | zero => rfl
  | succ c => simp [cbor_skip_loop_calls, hrc]

theorem skip_loop_calls_fst (s : Nat → Option (cbor_err × Nat × List Nat))
    (s' : Nat → Option (cbor_err × Nat))
    (h : ∀ q, (s q).map (fun r => (r.1, r.2.1)) = s' q) :
    ∀ (count : Nat) (rc : cbor_err) (p : Nat) (calls : List Nat),
      (cbor_skip_loop_calls s count rc p calls).map (fun r => (r.1, r.2.1))
        = cbor_skip_loop s' count rc p
  | 0, _, _, _ => rfl
  | count + 1, rc, p, calls => by
    simp only [cbor_skip_loop_calls, cbor_skip_loop]
    by_cases hrc : rc = CBOR_ERR_NONE
    · rw [if_pos hrc, if_pos hrc, ← h p]
      cases hs : s p with
      | none => rfl
      | some r =>
        simp only [Option.map_some']
        exact skip_loop_calls_fst s s' h count _ _ _
    · rw [if_neg hrc, if_neg hrc]
      rfl

theorem skip_calls_fst (mem : Mem) (end_ : Nat) : ∀ (fuel p : Nat),
    (cbor_skip_calls mem end_ fuel p).map (fun r => (r.1, r.2.1)) = cbor_skip mem end_ fuel p
  | 0, _ => rfl
  | f + 1, p => by
    rw [cbor_skip_calls, cbor_skip]
    split_ifs
    all_goals first
      | rfl
      | exact skip_loop_calls_fst _ _ (skip_calls_fst mem end_ f) _ _ _ _

/-- C19, the code at the failing inputs.  On `[0x94, 0x5B, 0xFF × 7, 0xF7]`
(`p = 0`, `end_ = 10`), an array of 20 items whose first child is a byte
string declaring the length `2^64 - 9`, every child skip succeeds and wraps
the cursor back to 1, so the call makes 21 invocations of `cbor_skip`, more
than `(end_ - p) + 1 = 11`.  On `[0x82, 0x5B, 0xFF × 7, 0xF6]` (`end_ = 10`)
the string wraps the cursor back to 0, the second child is the array itself
again, and `cbor_skip` returns at no recursion depth. -/
theorem C19_skip_invocations_unbounded :
    (cbor_skip_calls
        (memOf [0x94, 0x5B, 0xFF, 0xFF, 0xFF, 0xFF, 0xFF, 0xFF, 0xFF, 0xF7]) 10 2 0).map
      (fun r => (r.1, r.2.1, r.2.2.length)) = some (CBOR_ERR_NONE, 1, 21)
    ∧ ¬ (21 ≤ 10 - 0 + 1)
    ∧ (¬ ∃ fuel r,
        cbor_skip (memOf [0x82, 0x5B, 0xFF, 0xFF, 0xFF, 0xFF, 0xFF, 0xFF, 0xFF, 0xF6]) 10 fuel 0
          = some r) := by
  refine ⟨by decide, by decide, ?_⟩
  rintro ⟨fuel, r, h⟩
  have hnone : ∀ f,
      cbor_skip (memOf [0x82, 0x5B, 0xFF, 0xFF, 0xFF, 0xFF, 0xFF, 0xFF, 0xFF, 0xF6]) 10 f 0
        = none := by
    intro f
    induction f with
    | zero => rfl
    | succ g ih =>
      rw [skip_array _ 10 g 0 0 1 2 (by decide) (by decide) (by decide)]
      cases g with
      | zero => rfl
      | succ k =>
        have hstr : cbor_skip
            (memOf [0x82, 0x5B, 0xFF, 0xFF, 0xFF, 0xFF, 0xFF, 0xFF, 0xFF, 0xF6]) 10 (k + 1) 1
            = some (CBOR_ERR_NONE, 0) := by
          rw [skip_string _ 10 k 1 0 10 (2 ^ 64 - 10) (Or.inl (by decide)) (by decide)]
          decide
        simp only [cbor_skip_loop, if_true, hstr, ih]
  rw [hnone fuel] at h
  simp at h

/-! ## Where the cursor is after a failed skip -/

theorem skip_loop_error_cursor (skip : Nat → Option (cbor_err × Nat)) (end_ : Nat)
    (hskip : ∀ p rc q, skip p = some (rc, q) → rc ≠ CBOR_ERR_NONE →
      rc ≠ CBOR_ERR_OVERRUN → q ≤ end_) :
    ∀ (count p : Nat) (rc : cbor_err) (q : Nat),
      cbor_skip_loop skip count CBOR_ERR_NONE p = some (rc, q) →
      rc ≠ CBOR_ERR_NONE → rc ≠ CBOR_ERR_OVERRUN → q ≤ end_
  | 0, p, rc, q, h, h1, _ => by
    simp only [cbor_skip_loop, Option.some.injEq, Prod.mk.injEq] at h
    exact absurd h.1.symm h1
  | count + 1, p, rc, q, h, h1, h2 => by
    simp only [cbor_skip_loop, if_true] at h
    cases hs : skip p with
    | none => rw [hs] at h; simp at h
    | some r =>
      rw [hs] at h
      simp only at h
      obtain ⟨rc', p'⟩ := r
      by_cases hrc : rc' = CBOR_ERR_NONE
      · subst hrc
        exact skip_loop_error_cursor skip end_ hskip count p' rc q h h1 h2
      · rw [skip_loop_failed skip count rc' p' hrc] at h
        simp only [Option.some.injEq, Prod.mk.injEq] at h
        obtain ⟨e1, e2⟩ := h
        subst e1 e2
        exact hskip p rc' p' hs h1 h2

theorem skip_error_cursor (mem : Mem) (end_ : Nat) : ∀ (fuel p : Nat) (rc : cbor_err) (q : Nat),
    cbor_skip mem end_ fuel p = some (rc, q) →
    rc ≠ CBOR_ERR_NONE → rc ≠ CBOR_ERR_OVERRUN → q ≤ end_
  | 0, _, _, _, h, _, _ => by simp [cbor_skip] at h
  | f + 1, p, rc, q, h, h1, h2 => by
    have ih := skip_error_cursor mem end_ f
    rw [cbor_skip] at h
    by_cases hgt : (cbor_extractors (typeBits mem p >>> 5) mem p end_ cbor_value_t.init).2.1
        > end_
    · simp [hgt] at h
      exact absurd h.1.symm h2
    · by_cases hrc : (cbor_extractors (typeBits mem p >>> 5) mem p end_ cbor_value_t.init).1
          = CBOR_ERR_NONE
      · simp only [hgt, if_false, hrc, ne_eq, not_true_eq_false] at h
        split_ifs at h
        · simp only [Option.some.injEq, Prod.mk.injEq] at h
          exact absurd h.1.symm h1
        · exact skip_loop_error_cursor _ end_ ih _ _ rc q h h1 h2
        · exact skip_loop_error_cursor _ end_ ih _ _ rc q h h1 h2
        · simp only [Option.some.injEq, Prod.mk.injEq] at h
          obtain ⟨_, e2⟩ := h
          subst e2
          exact Nat.le_of_not_gt hgt
      · simp only [hgt, if_false, ne_eq, hrc, not_false_eq_true, if_true,
          Option.some.injEq, Prod.mk.injEq] at h
        obtain ⟨_, e2⟩ := h
        subst e2
        exact Nat.le_of_not_gt hgt

/-- C11, the code at the failing input: on the buffer `[0x82, 0x01]`
(`p = 0 < end_ = 2`) `cbor_skip` is entered at the cursors 0, 1 and 2, and
each entry reads the octet at its cursor, so the octet at address 2 = `end_`
is read; two memories that agree on the whole buffer and differ only at
address 2 give different results. -/
theorem C11_skip_reads_octet_at_end :
    cbor_skip_calls (memOf [0x82, 0x01, 0xC0]) 2 2 0
      = some (CBOR_ERR_UNIMPLEMENTED, 2, [0, 1, 2])
    ∧ (∀ a, a < 2 → memOf [0x82, 0x01, 0xC0] a = memOf [0x82, 0x01, 0x00] a)
    ∧ cbor_skip (memOf [0x82, 0x01, 0xC0]) 2 2 0
        ≠ cbor_skip (memOf [0x82, 0x01, 0x00]) 2 2 0 := by
  refine ⟨by decide, ?_, by decide⟩
  intro a ha
  interval_cases a <;> rfl

theorem error_cursor_le_end (mem : Mem) (p end_ : Nat) (hp : p < end_) :
    (∀ n, (cbor_get_argument mem p end_ n).1 ≠ CBOR_ERR_NONE →
      (cbor_get_argument mem p end_ n).2.1 ≤ end_)
    ∧ (∀ i val, (cbor_extractors i mem p end_ val).1 ≠ CBOR_ERR_NONE →
      (cbor_extractors i mem p end_ val).2.1 ≤ end_)
    ∧ (∀ fuel rc q, cbor_skip mem end_ fuel p = some (rc, q) →
      rc ≠ CBOR_ERR_NONE → rc ≠ CBOR_ERR_OVERRUN → q ≤ end_) :=
  ⟨fun n _ => get_argument_cursor_le mem p end_ n (Nat.le_of_lt hp),
    fun i val => extractors_error_cursor_le i mem p end_ val hp,
    fun fuel rc q => skip_error_cursor mem end_ fuel p rc q⟩

/-- C12, the code at the failing input: on the buffer `[0x42, 0x00]`
(`p = 0 < end_ = 2`, a byte string of declared length 2 with one octet
present) `cbor_extract_stringref` moves the cursor to 3 and `cbor_skip`
returns CBOR_ERR_OVERRUN with the cursor left at 3, past `end_`, at every
recursion depth at which it returns. -/
theorem C12_skip_error_cursor_past_end :
    cbor_skip (memOf [0x42, 0x00]) 2 1 0 = some (CBOR_ERR_OVERRUN, 3)
    ∧ ¬ (3 ≤ 2)
    ∧ (¬ ∃ fuel rc q, cbor_skip (memOf [0x42, 0x00]) 2 fuel 0 = some (rc, q) ∧ q ≤ 2) := by
  refine ⟨by decide, by decide, ?_⟩
  rintro ⟨fuel, rc, q, h, hq⟩
  have h1 : cbor_skip (memOf [0x42, 0x00]) 2 1 0 = some (CBOR_ERR_OVERRUN, 3) := by decide
  have := skip_result_unique _ _ _ _ _ _ _ h h1
  simp only [Prod.mk.injEq] at this
  omega

/-- C14, the code at the failing input: the map header
`[0xBB, 0x80, 0, 0, 0, 0, 0, 0, 0]` declares `2^63` pairs; `cbor_skip` returns
CBOR_ERR_NONE with the cursor right after the header in a single invocation,
no child skipped, when nothing follows the header and also when the octets
`0x01, 0x02` follow it. -/
theorem C14_skip_map_count_wraps :
    cbor_get_argument (memOf [0xBB, 0x80, 0, 0, 0, 0, 0, 0, 0]) 0 9 0
      = (CBOR_ERR_NONE, 9, 2 ^ 63)
    ∧ cbor_skip_calls (memOf [0xBB, 0x80, 0, 0, 0, 0, 0, 0, 0]) 9 1 0
        = some (CBOR_ERR_NONE, 9, [0])
    ∧ cbor_skip (memOf [0xBB, 0x80, 0, 0, 0, 0, 0, 0, 0]) 9 1 0 = some (CBOR_ERR_NONE, 9)
    ∧ cbor_skip_calls (memOf [0xBB, 0x80, 0, 0, 0, 0, 0, 0, 0, 0x01, 0x02]) 11 3 0
        = some (CBOR_ERR_NONE, 9, [0]) := by
  refine ⟨by decide, by decide, by decide, by decide⟩


end BmCbor
